import Mathlib

/-!
# dive: a concurrent recursive search tool

A shallow embedding of `main.go`.  Go strings and byte slices are lists of
bytes.  The file system is a finite tree.  Every goroutine (`delve`, `scrape`)
is the sequence of operations it performs on the shared state (the wait group,
the admission gate `fileAllowed`, the result channel `match`); the program is
the interleaving of these sequences with the waiter goroutine and the
collector loop of `main`.
-/

namespace Dive

/-! ## Strings -/

/-- A Go string or byte slice: a sequence of bytes. -/
abbrev Str := List Nat

/-- The bytes of an ASCII literal. -/
def ascii (s : String) : Str := s.toList.map Char.toNat

/-- Function strings.HasPrefix. -/
def hasPrefix (s pre : Str) : Bool := pre.isPrefixOf s

/-- Function strings.Contains: does `substr` occur in `s`. -/
def stringsContains : Str → Str → Bool
  | [], substr => substr.isEmpty
  | b :: s, substr => hasPrefix (b :: s) substr || stringsContains s substr

/-- Function strings.TrimSuffix. -/
def trimSuffix (s suffix : Str) : Str :=
  if suffix.isSuffixOf s then s.take (s.length - suffix.length) else s

/-- The verb `%d` of fmt.Sprintf on a non-negative int. -/
def fmtInt (n : Nat) : Str := ascii (Nat.repr n)

/-! ## Flags and globals -/

/-- The package-level flags and the pattern set up by `main`.  `expr` is the
`MatchString` of the regular expression compiled from the first argument and
`raw` is that argument itself. -/
structure Flags where
  byName : Bool
  mSize : Nat
  winFlag : Bool
  maxFiles : Nat
  noPlumb : Bool
  literal : Bool
  allDirs : Bool
  allMimes : Bool
  raw : Str
  expr : Str → Bool

/-- The record separator: `'\n'`, or `'\r'` when `-win` is given. -/
def sep (c : Flags) : Nat := if c.winFlag then 13 else 10

/-- The directories skipped unless `-a` is given. -/
def noiseDirs : List Str := [ascii ".git"]

/-- Function `matches`: the pattern test shared by names and content. -/
def matchesStr (c : Flags) (s : Str) : Bool :=
  if c.literal then stringsContains s c.raw else c.expr s

/-! ## The file system -/

mutual
/-- What a path resolves to.  `noent`: `os.Open` fails.  `file none`: the file
opens but its first `Read` fails.  `dir ok es`: a directory that opens; `ok`
says whether `os.ReadDir` succeeds, `es` is the listing.  `fifo`: a path on
which `os.Open` never returns, such as a named pipe with no writer. -/
inductive Node where
  | noent
  | file (content : Option Str)
  | dir (ok : Bool) (entries : Entries)
  | fifo
/-- A directory listing in the order `os.ReadDir` returns it: for each entry
its name, what `entry.IsDir()` reports and what the joined path resolves to. -/
inductive Entries where
  | nil
  | cons (name : Str) (isDir : Bool) (node : Node) (rest : Entries)
end

/-- Function `isDir`: the path opens and is a directory. -/
def isDir : Node → Bool
  | .dir _ _ => true
  | _ => false

/-- Whether `os.Open` returns on the path, with a file or with an error. -/
def opens : Node → Bool
  | .fifo => false
  | _ => true

/-! ## Path joining (path/filepath, Unix) -/

/-- The elements of a path between separators `/`. -/
def splitSlash : Str → List Str
  | [] => [[]]
  | b :: rest =>
    if b = 47 then [] :: splitSlash rest
    else match splitSlash rest with
      | [] => [[b]]
      | e :: es => (b :: e) :: es

/-- One element of a path processed by `filepath.Clean`; `out` holds the
elements kept so far, last first. -/
def cleanStep (rooted : Bool) (out : List Str) (e : Str) : List Str :=
  if e = [] ∨ e = [46] then out
  else if e = [46, 46] then
    match out with
    | [] => if rooted then [] else [e]
    | top :: below => if top = [46, 46] then e :: top :: below else below
  else e :: out

/-- Function filepath.Clean. -/
def filepathClean (path : Str) : Str :=
  let rooted := path.head? = some 47
  let out := (splitSlash path).foldl (cleanStep rooted) []
  let body := List.intercalate [47] out.reverse
  let res := if rooted then 47 :: body else body
  if res = [] then [46] else res

/-- Function filepath.Join on two elements: empty elements are ignored and
the result is cleaned. -/
def filepathJoin (a b : Str) : Str :=
  if a ≠ [] then filepathClean (a ++ 47 :: b)
  else if b ≠ [] then filepathClean b
  else []

/-! ## Content sniffing (net/http) -/

/-- A whitespace byte of the sniffing algorithm. -/
def isWS (b : Nat) : Bool := b = 9 ∨ b = 10 ∨ b = 12 ∨ b = 13 ∨ b = 32

/-- A tag-terminating byte of the sniffing algorithm. -/
def isTT (b : Nat) : Bool := b = 32 ∨ b = 62

/-- A signature of the sniffing table. -/
inductive SniffSig where
  | html (h : Str)
  | masked (mask pat : Str) (skipWS : Bool) (ct : Str)
  | exact (sig ct : Str)
  | mp4
  | text

/-- The match of an HTML signature: the tag, case-insensitively on its
letters, followed by a tag-terminating byte. -/
def htmlMatch : Str → Str → Bool
  | [], d :: _ => isTT d
  | [], [] => false
  | _ :: _, [] => false
  | b :: hs, d :: ds =>
    (b == (if 65 ≤ b ∧ b ≤ 90 then d &&& 0xDF else d)) && htmlMatch hs ds

/-- The match of a masked signature on bytes that are long enough. -/
def maskedMatch : Str → Str → Str → Bool
  | [], [], _ => true
  | m :: ms, p :: ps, d :: ds => (d &&& m == p) && maskedMatch ms ps ds
  | _, _, _ => false

/-- A binary data byte of the sniffing algorithm. -/
def isBinaryByte (b : Nat) : Bool :=
  b ≤ 0x08 ∨ b = 0x0B ∨ (0x0E ≤ b ∧ b ≤ 0x1A) ∨ (0x1C ≤ b ∧ b ≤ 0x1F)

/-- The MP4 signature: a box of type `ftyp` that lists a brand `mp4`. -/
def mp4Match (data : Str) : Bool :=
  if data.length < 12 then false
  else
    let boxSize := ((data.getD 0 0 * 256 + data.getD 1 0) * 256 + data.getD 2 0) * 256
      + data.getD 3 0
    if data.length < boxSize ∨ boxSize % 4 ≠ 0 then false
    else if (data.drop 4).take 4 ≠ ascii "ftyp" then false
    else (List.range (boxSize / 4)).any fun k =>
      decide (2 ≤ k) && decide (k ≠ 3) && ((data.drop (4 * k)).take 3 == ascii "mp4")

/-- Method `match` of a signature: the content type, or the empty string. -/
def SniffSig.matchSig (data : Str) (firstNonWS : Nat) : SniffSig → Str
  | .html h =>
    if htmlMatch h (data.drop firstNonWS) then ascii "text/html; charset=utf-8" else []
  | .masked mask pat skipWS ct =>
    let d := if skipWS then data.drop firstNonWS else data
    if pat.length ≠ mask.length then []
    else if d.length < pat.length then []
    else if maskedMatch mask pat d then ct else []
  | .exact sig ct => if hasPrefix data sig then ct else []
  | .mp4 => if mp4Match data then ascii "video/mp4" else []
  | .text =>
    if (data.drop firstNonWS).any isBinaryByte then [] else ascii "text/plain; charset=utf-8"

/-- The sniffing table `sniffSignatures`. -/
def sniffSignatures : List SniffSig :=
  [ .html (ascii "<!DOCTYPE HTML"), .html (ascii "<HTML"), .html (ascii "<HEAD"),
    .html (ascii "<SCRIPT"), .html (ascii "<IFRAME"), .html (ascii "<H1"),
    .html (ascii "<DIV"), .html (ascii "<FONT"), .html (ascii "<TABLE"),
    .html (ascii "<A"), .html (ascii "<STYLE"), .html (ascii "<TITLE"),
    .html (ascii "<B"), .html (ascii "<BODY"), .html (ascii "<BR"),
    .html (ascii "<P"), .html (ascii "<!--"),
    .masked [255, 255, 255, 255, 255] (ascii "<?xml") true (ascii "text/xml; charset=utf-8"),
    .exact (ascii "%PDF-") (ascii "application/pdf"),
    .exact (ascii "%!PS-Adobe-") (ascii "application/postscript"),
    .masked [255, 255, 0, 0] [0xFE, 0xFF, 0, 0] false (ascii "text/plain; charset=utf-16be"),
    .masked [255, 255, 0, 0] [0xFF, 0xFE, 0, 0] false (ascii "text/plain; charset=utf-16le"),
    .masked [255, 255, 255, 0] [0xEF, 0xBB, 0xBF, 0] false (ascii "text/plain; charset=utf-8"),
    .exact [0, 0, 1, 0] (ascii "image/x-icon"),
    .exact [0, 0, 2, 0] (ascii "image/x-icon"),
    .exact (ascii "BM") (ascii "image/bmp"),
    .exact (ascii "GIF87a") (ascii "image/gif"),
    .exact (ascii "GIF89a") (ascii "image/gif"),
    .masked [255, 255, 255, 255, 0, 0, 0, 0, 255, 255, 255, 255, 255, 255]
      (ascii "RIFF" ++ [0, 0, 0, 0] ++ ascii "WEBPVP") false (ascii "image/webp"),
    .exact [0x89, 80, 78, 71, 0x0D, 0x0A, 0x1A, 0x0A] (ascii "image/png"),
    .exact [0xFF, 0xD8, 0xFF] (ascii "image/jpeg"),
    .masked [255, 255, 255, 255, 0, 0, 0, 0, 255, 255, 255, 255]
      (ascii "FORM" ++ [0, 0, 0, 0] ++ ascii "AIFF") false (ascii "audio/aiff"),
    .masked [255, 255, 255] (ascii "ID3") false (ascii "audio/mpeg"),
    .masked [255, 255, 255, 255, 255] (ascii "OggS" ++ [0]) false (ascii "application/ogg"),
    .masked [255, 255, 255, 255, 255, 255, 255, 255] (ascii "MThd" ++ [0, 0, 0, 6]) false
      (ascii "audio/midi"),
    .masked [255, 255, 255, 255, 0, 0, 0, 0, 255, 255, 255, 255]
      (ascii "RIFF" ++ [0, 0, 0, 0] ++ ascii "AVI ") false (ascii "video/avi"),
    .masked [255, 255, 255, 255, 0, 0, 0, 0, 255, 255, 255, 255]
      (ascii "RIFF" ++ [0, 0, 0, 0] ++ ascii "WAVE") false (ascii "audio/wave"),
    .mp4,
    .exact [0x1A, 0x45, 0xDF, 0xA3] (ascii "video/webm"),
    .masked (List.replicate 34 0 ++ [255, 255]) (List.replicate 34 0 ++ ascii "LP") false
      (ascii "application/vnd.ms-fontobject"),
    .exact [0, 1, 0, 0] (ascii "font/ttf"),
    .exact (ascii "OTTO") (ascii "font/otf"),
    .exact (ascii "ttcf") (ascii "font/collection"),
    .exact (ascii "wOFF") (ascii "font/woff"),
    .exact (ascii "wOF2") (ascii "font/woff2"),
    .exact [0x1F, 0x8B, 0x08] (ascii "application/x-gzip"),
    .exact (ascii "PK" ++ [3, 4]) (ascii "application/zip"),
    .exact (ascii "Rar!" ++ [0x1A, 7, 0]) (ascii "application/x-rar-compressed"),
    .exact (ascii "Rar!" ++ [0x1A, 7, 1, 0]) (ascii "application/x-rar-compressed"),
    .exact [0, 0x61, 0x73, 0x6D] (ascii "application/wasm"),
    .text ]

/-- The first signature of the list that matches, `application/octet-stream`
when none does. -/
def firstMatch (data : Str) (firstNonWS : Nat) : List SniffSig → Str
  | [] => ascii "application/octet-stream"
  | sig :: sigs =>
    let ct := sig.matchSig data firstNonWS
    if ct ≠ [] then ct else firstMatch data firstNonWS sigs

/-- Function http.DetectContentType: at most the first 512 bytes of `data`
are considered. -/
def DetectContentType (data : Str) : Str :=
  let data := if data.length > 512 then data.take 512 else data
  let firstNonWS := (data.takeWhile isWS).length
  firstMatch data firstNonWS sniffSignatures

/-! ## The content scanner -/

/-- Method bufio.Reader.ReadString on the unread bytes `data`: the bytes up to
and including the first `delim`, the bytes left unread, and whether the end
of the input was hit before a delimiter (the call then returns an error). -/
def readString (delim : Nat) : Str → Str × Str × Bool
  | [] => ([], [], true)
  | b :: rest =>
    if b = delim then ([b], rest, false)
    else
      let r := readString delim rest
      (b :: r.1, r.2.1, r.2.2)

/-- The match record built for the record `s` read as line `ln` of `path`. -/
def mstr (c : Flags) (path : Str) (ln : Nat) (s : Str) : Str :=
  let s := trimSuffix s [10]
  if !c.noPlumb then path ++ ascii ":" ++ fmtInt ln ++ ascii ": " ++ s else s

/-- The read loop of `scrape` from line `ln` on the unread bytes `data`: the
records pushed to `match`, in order.  `fuel` bounds the number of
iterations. -/
def scanLoop (c : Flags) (path : Str) : Nat → Nat → Str → List Str
  | 0, _, _ => []
  | fuel + 1, ln, data =>
    let r := readString (sep c) data
    if r.2.2 ∧ r.1.length ≤ 0 then []
    else if matchesStr c r.1 then mstr c path ln r.1 :: scanLoop c path fuel (ln + 1) r.2.1
    else scanLoop c path fuel (ln + 1) r.2.1

/-- The buffer `buf` of `scrape` after `f.Read(buf)`: 512 bytes, the first of
them read from the file, the others still zero. -/
def sniffBuf (content : Str) : Str :=
  content.take 512 ++ List.replicate (512 - content.length) 0

/-- Whether `scrape` leaves at the content type check. -/
def skippedAsBinary (c : Flags) (content : Str) : Bool :=
  !c.allMimes && stringsContains (DetectContentType (sniffBuf content)) (ascii "octet-stream")

/-- The records `scrape(path)` pushes to `match`, in order, between taking and
returning its token. -/
def scrapeRecords (c : Flags) (path : Str) : Node → List Str
  | .noent => []
  | .dir _ _ => []
  | .fifo => []
  | .file none => []
  | .file (some content) =>
    if content = [] then []
    else if skippedAsBinary c content then []
    else scanLoop c path (content.length + 1) 1 content

/-! ## Goroutines as sequences of operations on the shared state -/

/-- An operation of a goroutine on the shared state.
`add` is `wg.Add(1)`, `goDelve p n` is `go delve(p, wg)` where `p` resolves to
`n`, `goScrape p n` is `go scrape(p, wg)`, `push s` is `match <- s`, `acquire`
is `<-fileAllowed`, `release` is `fileAllowed <- Nothing` and `done` is
`wg.Done()`.  `hang` is a call of `os.Open` that never returns: the goroutine
stays in it for good. -/
inductive Instr where
  | add
  | goDelve (path : Str) (n : Node)
  | goScrape (path : Str) (n : Node)
  | push (s : Str)
  | acquire
  | release
  | done
  | hang

/-- The loop `DIRS` of `delve` over the entries of the directory `path`. -/
def delveEntries (c : Flags) (path : Str) : Entries → List Instr
  | .nil => []
  | .cons name entryIsDir node rest =>
    let p := filepathJoin path name
    (if entryIsDir then [.add, .goDelve p node]
     else if c.byName then (if matchesStr c p then [.push p] else [])
     else [.add, .goScrape p node]) ++ delveEntries c path rest

/-- Function `delve` called on `path`, which resolves to `n`.  On a path that
never opens the call of `isDir` does not return, and nothing after it is
reached. -/
def delve (c : Flags) (path : Str) (n : Node) : List Instr :=
  if !c.allDirs && noiseDirs.contains path then [.done]
  else if !opens n then [.hang, .done]
  else if !isDir n then [.add, .goScrape path n, .done]
  else match n with
    | .dir true entries => delveEntries c path entries ++ [.done]
    | _ => [.done]

/-- Function `scrape` called on `path`, which resolves to `n`.  On a path that
never opens the goroutine takes its token and stays in `os.Open`. -/
def scrape (c : Flags) (path : Str) (n : Node) : List Instr :=
  .acquire :: ((if opens n then [] else [.hang])
    ++ ((scrapeRecords c path n).map .push ++ [.release, .done]))

mutual
/-- The records pushed by `delve(path)` and by every goroutine started below
it, in depth-first order. -/
def emitted (c : Flags) (path : Str) : Node → List Str
  | .noent =>
    if !c.allDirs && noiseDirs.contains path then [] else scrapeRecords c path .noent
  | .file content =>
    if !c.allDirs && noiseDirs.contains path then [] else scrapeRecords c path (.file content)
  | .dir ok entries =>
    if !c.allDirs && noiseDirs.contains path then []
    else if ok then emittedEntries c path entries else []
  | .fifo => []
/-- The records pushed for the entries of the directory `path`. -/
def emittedEntries (c : Flags) (path : Str) : Entries → List Str
  | .nil => []
  | .cons name entryIsDir node rest =>
    (if entryIsDir then emitted c (filepathJoin path name) node
     else if c.byName then
       (if matchesStr c (filepathJoin path name) then [filepathJoin path name] else [])
     else scrapeRecords c (filepathJoin path name) node)
    ++ emittedEntries c path rest
end

/-! ## The program as a transition system -/

/-- The goroutine started by `main` that waits for the counter and then
signals on `done`: not started, in `wg.Wait()`, in `done <- Nothing`, before
`close(done)`, returned. -/
inductive Waiter where
  | unborn
  | waiting
  | sending
  | closing
  | closed
deriving DecidableEq

/-- The shared state and the control points of all goroutines.  `prelude`
holds the operations left of the loop of `main` that starts a `delve` per
root, `tasks` the operations left of every goroutine started so far (empty
once it has returned), `pushed` the history of all values sent on `match`. -/
structure State where
  wg : Int
  fileAllowed : Nat
  matchCh : List Str
  tasks : List (List Instr)
  prelude : List Instr
  waiter : Waiter
  exited : Bool
  out : List Str
  pushed : List Str

/-- The statements of `main` between the channel set-up and the waiter. -/
def spawnRoots : List (Str × Node) → List Instr
  | [] => []
  | d :: ds => .add :: .goDelve d.1 d.2 :: spawnRoots ds

/-- The state after `main` has pre-loaded `fileAllowed` with its tokens. -/
def initState (c : Flags) (dirs : List (Str × Node)) : State :=
  { wg := 0, fileAllowed := c.maxFiles, matchCh := [], tasks := [],
    prelude := spawnRoots dirs, waiter := .unborn, exited := false, out := [], pushed := [] }

/-- The effect of one operation on the shared state; `none` when the
operation blocks. -/
def exec (c : Flags) (s : State) : Instr → Option State
  | .add => some { s with wg := s.wg + 1 }
  | .goDelve p n => some { s with tasks := s.tasks ++ [delve c p n] }
  | .goScrape p n => some { s with tasks := s.tasks ++ [scrape c p n] }
  | .push r =>
    if s.matchCh.length < c.mSize then
      some { s with matchCh := s.matchCh ++ [r], pushed := s.pushed ++ [r] }
    else none
  | .acquire => if 0 < s.fileAllowed then some { s with fileAllowed := s.fileAllowed - 1 } else none
  | .release =>
    if s.fileAllowed < c.maxFiles then some { s with fileAllowed := s.fileAllowed + 1 } else none
  | .done => some { s with wg := s.wg - 1 }
  | .hang => none

/-- Who moves next.  `main`: the next statement of `main` before its loop.
`task i`: the next operation of the `i`-th goroutine.  `waiter`: `wg.Wait()`
returns, or `close(done)`.  The others are the cases of the `select` of the
collector loop: `recvMatch` receives a buffered value, `recvSync i` receives
from goroutine `i` blocked in its send on an unbuffered `match`, `recvDone`
receives from `done`, `idle` is the default case. -/
inductive Actor where
  | main
  | task (i : Nat)
  | waiter
  | recvMatch
  | recvSync (i : Nat)
  | recvDone
  | idle

/-- Whether `main` is in its collector loop. -/
def State.spinning (s : State) : Bool :=
  s.prelude.isEmpty && s.waiter != .unborn && !s.exited

/-- One step of the program. -/
def step (c : Flags) (s : State) : Actor → Option State
  | .main =>
    match s.prelude with
    | i :: rest => (exec c s i).map fun s1 => { s1 with prelude := rest }
    | [] => if s.waiter = .unborn then some { s with waiter := .waiting } else none
  | .task i =>
    match s.tasks.getD i [] with
    | [] => none
    | op :: rest => (exec c s op).map fun s1 => { s1 with tasks := s1.tasks.set i rest }
  | .waiter =>
    match s.waiter with
    | .waiting => if s.wg = 0 then some { s with waiter := .sending } else none
    | .closing => some { s with waiter := .closed }
    | _ => none
  | .recvMatch =>
    if s.spinning then
      match s.matchCh with
      | r :: rest => some { s with matchCh := rest, out := s.out ++ [r] }
      | [] => none
    else none
  | .recvSync i =>
    if s.spinning && c.mSize == 0 then
      match s.tasks.getD i [] with
      | .push r :: rest =>
        some { s with tasks := s.tasks.set i rest, out := s.out ++ [r], pushed := s.pushed ++ [r] }
      | _ => none
    else none
  | .recvDone =>
    if s.spinning then
      match s.waiter with
      | .sending => some { s with waiter := .closing }
      | .closed => if s.matchCh.length < 1 then some { s with exited := true } else some s
      | _ => none
    else none
  | .idle =>
    if s.spinning && s.matchCh.isEmpty && s.waiter != .closed then some s else none

/-- The states the program reaches from its start on the roots `dirs`. -/
inductive Reachable (c : Flags) (dirs : List (Str × Node)) : State → Prop where
  | init : Reachable c dirs (initState c dirs)
  | step {s s1 : State} (a : Actor) : Reachable c dirs s → step c s a = some s1 →
      Reachable c dirs s1

/-- The state after the actors of `as` have moved in turn; an actor that
cannot move is passed over. -/
def run (c : Flags) (s : State) : List Actor → State
  | [] => s
  | a :: as =>
    match step c s a with
    | some s1 => run c s1 as
    | none => run c s as

/-! ## Specification-level vocabulary -/

/-- The separator-delimited records of a content, each still carrying its
terminating separator; the bytes after the last separator form a final record
when there are any. -/
def records (sp : Nat) : Str → List Str
  | [] => []
  | b :: rest =>
    if b = sp then [b] :: records sp rest
    else match records sp rest with
      | [] => [[b]]
      | r :: rs => (b :: r) :: rs

/-- The record reported for the record `p.2` numbered `p.1` of the file
`path`, if it satisfies the pattern. -/
def report (c : Flags) (path : Str) (p : Nat × Str) : Option Str :=
  if matchesStr c p.2 then
    some (if c.noPlumb then trimSuffix p.2 [10]
      else path ++ ascii ":" ++ fmtInt p.1 ++ ascii ": " ++ trimSuffix p.2 [10])
  else none

/-- The value an operation sends on `match`, if it is a send. -/
def Instr.pushOf : Instr → Option Str
  | .push r => some r
  | _ => none

/-- Whether the operation takes a token. -/
def Instr.isAcquire : Instr → Bool
  | .acquire => true
  | _ => false

/-- Whether the operation returns a token. -/
def Instr.isRelease : Instr → Bool
  | .release => true
  | _ => false

/-- Whether the operation is `wg.Done()`. -/
def Instr.isDone : Instr → Bool
  | .done => true
  | _ => false

/-- Whether the operation starts a `scrape` goroutine. -/
def Instr.isGoScrape : Instr → Bool
  | .goScrape _ _ => true
  | _ => false

/-- A directory listing as a list. -/
def Entries.toList : Entries → List (Str × Bool × Node)
  | .nil => []
  | .cons name entryIsDir node rest => (name, entryIsDir, node) :: rest.toList

/-! ## Concrete scenarios -/

/-- The flags at their defaults, for a pattern given raw and compiled. -/
def defaultFlags (raw : Str) (expr : Str → Bool) : Flags :=
  { byName := false, mSize := 100, winFlag := false, maxFiles := 500, noPlumb := false,
    literal := false, allDirs := false, allMimes := false, raw := raw, expr := expr }

/-- The `MatchString` of the expression compiled from `o`: the string holds
an `o`. -/
def reO (s : Str) : Bool := stringsContains s (ascii "o")

/-- The `MatchString` of the expression compiled from `^a`: the string starts
with an `a`. -/
def reCaretA (s : Str) : Bool := hasPrefix s (ascii "a")

/-- The tree of scenario 1: `a.txt` holds two lines, `b.txt` one. -/
def scenarioTree : Node :=
  .dir true (.cons (ascii "a.txt") false (.file (some (ascii "hello\nworld\n")))
    (.cons (ascii "b.txt") false (.file (some (ascii "goodbye\n"))) .nil))

/-- The tree of scenario 3: the files `a.txt` and `bee.txt`. -/
def nameTree : Node :=
  .dir true (.cons (ascii "a.txt") false (.file (some (ascii "x\n")))
    (.cons (ascii "bee.txt") false (.file (some (ascii "y\n"))) .nil))

/-- A directory `.git` that holds one file `config`. -/
def gitDir : Node := .dir true (.cons (ascii "config") false (.file (some (ascii "o\n"))) .nil)

/-- A directory `proj` that holds the directory `.git`. -/
def projTree : Node := .dir true (.cons (ascii ".git") true gitDir .nil)

/-- Two roots `a` and `b`, both empty directories. -/
def twoRoots : List (Str × Node) :=
  [(ascii "a", .dir true .nil), (ascii "b", .dir true .nil)]

/-- The flags of scenario 1 with `-b`, one token and a result buffer of one. -/
def tightFlags : Flags :=
  { defaultFlags (ascii "o") reO with allMimes := true, maxFiles := 1, mSize := 1 }

/-- A schedule of scenario 1 that ends with the collector loop left. -/
def fullSchedule : List Actor :=
  [.main, .main, .main, .task 0, .task 0, .task 0, .task 0, .task 0, .task 1, .task 1,
   .recvMatch, .task 1, .recvMatch, .task 1, .task 1, .task 2, .task 2, .task 2, .task 2,
   .waiter, .recvDone, .waiter, .recvDone, .recvMatch, .recvDone]

/-- The flags of scenario 1 with `-filemax 0`. -/
def noTokens : Flags := { defaultFlags (ascii "o") reO with maxFiles := 0 }

/-- A run on the single root `a.txt` up to the start of its `scrape`. -/
def stuck : State :=
  run noTokens (initState noTokens [(ascii "a.txt", .file (some (ascii "hello\n")))])
    [.main, .main, .main, .task 0, .task 0, .task 0]

/-! ## Control points, counts and measures -/

/-- What is left of a `delve` goroutine at a statement boundary: for an entry
a registration followed by the start it registers, or a send; `wg.Done()`
comes last and once.  A call of `isDir` that never returns may stand before
it. -/
inductive DelveTail : List Instr → Prop where
  | done : DelveTail [.done]
  | goDelve {t : List Instr} (p : Str) (n : Node) :
      DelveTail t → DelveTail (.add :: .goDelve p n :: t)
  | goScrape {t : List Instr} (p : Str) (n : Node) :
      DelveTail t → DelveTail (.add :: .goScrape p n :: t)
  | push {t : List Instr} (r : Str) : DelveTail t → DelveTail (.push r :: t)
  | hang {t : List Instr} : DelveTail t → DelveTail (.hang :: t)

/-- What is left of a `scrape` goroutine that holds a token: possibly an
`os.Open` that never returns, else sends, then the release of the token, then
`wg.Done()`. -/
inductive ScrapeTail : List Instr → Prop where
  | release : ScrapeTail [.release, .done]
  | push {t : List Instr} (r : Str) : ScrapeTail t → ScrapeTail (.push r :: t)
  | hang {t : List Instr} : ScrapeTail t → ScrapeTail (.hang :: t)

/-- The control points of a goroutine: returned, inside `delve` before or
after a registration, waiting for a token, holding one, or past its
release. -/
inductive TaskOk : List Instr → Prop where
  | returned : TaskOk []
  | delve {t : List Instr} : DelveTail t → TaskOk t
  | startDelve {t : List Instr} (p : Str) (n : Node) : DelveTail t → TaskOk (.goDelve p n :: t)
  | startScrape {t : List Instr} (p : Str) (n : Node) :
      DelveTail t → TaskOk (.goScrape p n :: t)
  | waiting {t : List Instr} : ScrapeTail t → TaskOk (.acquire :: t)
  | holding {t : List Instr} : ScrapeTail t → TaskOk t

/-- The control points of `main` in its loop over the roots. -/
inductive PreludeOk : List Instr → Prop where
  | roots (ds : List (Str × Node)) : PreludeOk (spawnRoots ds)
  | start (p : Str) (n : Node) (ds : List (Str × Node)) :
      PreludeOk (.goDelve p n :: spawnRoots ds)

/-- One for a goroutine that has not returned. -/
def live (t : List Instr) : Nat := if t.isEmpty then 0 else 1

/-- One for a goroutine that has registered a task it has not started yet. -/
def pendingGo : List Instr → Nat
  | .goDelve _ _ :: _ => 1
  | .goScrape _ _ :: _ => 1
  | _ => 0

/-- The tasks a goroutine accounts for in the counter: itself while it has
not returned, and a task it has registered and not started. -/
def registered (t : List Instr) : Nat := live t + pendingGo t

/-- Whether a goroutine holds a token: the next operation on `fileAllowed`
it has left is the release. -/
def holdsToken : List Instr → Bool
  | [] => false
  | .release :: _ => true
  | .acquire :: _ => false
  | _ :: t => holdsToken t

/-- One for a goroutine that holds a token. -/
def holdsN (t : List Instr) : Nat := if holdsToken t then 1 else 0

/-- The number of goroutines that hold a token. -/
def holders (s : State) : Nat := (s.tasks.map holdsN).sum

/-- The records an operation has yet to cause on `match`: its own send, or
all sends of the goroutine it starts and of those below. -/
def instrEmits (c : Flags) : Instr → List Str
  | .push r => [r]
  | .goDelve p n => emitted c p n
  | .goScrape p n => scrapeRecords c p n
  | _ => []

/-- The records the rest of a goroutine has yet to cause on `match`. -/
def progEmits (c : Flags) (t : List Instr) : List Str := (t.map (instrEmits c)).flatten

/-- The number of steps `scrape` takes on a file, the receipt of its sends
included. -/
def scrapeCost (c : Flags) (path : Str) (n : Node) : Nat :=
  3 + (if opens n then 0 else 1) + 2 * (scrapeRecords c path n).length

mutual
/-- The number of steps the goroutine `delve(path)` and all goroutines below
it take, the receipt of their sends included. -/
def delveCost (c : Flags) (path : Str) : Node → Nat
  | .noent =>
    if !c.allDirs && noiseDirs.contains path then 1 else 3 + scrapeCost c path .noent
  | .file content =>
    if !c.allDirs && noiseDirs.contains path then 1
    else 3 + scrapeCost c path (.file content)
  | .dir ok entries =>
    if !c.allDirs && noiseDirs.contains path then 1
    else if ok then entriesCost c path entries + 1 else 1
  | .fifo => if !c.allDirs && noiseDirs.contains path then 1 else 2
/-- The number of steps caused by the entries of the directory `path`. -/
def entriesCost (c : Flags) (path : Str) : Entries → Nat
  | .nil => 0
  | .cons name entryIsDir node rest =>
    (if entryIsDir then 2 + delveCost c (filepathJoin path name) node
     else if c.byName then (if matchesStr c (filepathJoin path name) then 2 else 0)
     else 2 + scrapeCost c (filepathJoin path name) node)
    + entriesCost c path rest
end

/-- The number of steps an operation causes: itself, the receipt of what it
sends, the goroutine it starts. -/
def instrCost (c : Flags) : Instr → Nat
  | .goDelve p n => 1 + delveCost c p n
  | .goScrape p n => 1 + scrapeCost c p n
  | .push _ => 2
  | _ => 1

/-- The number of steps the rest of a goroutine causes. -/
def progCost (c : Flags) (t : List Instr) : Nat := (t.map (instrCost c)).sum

/-- The number of steps the waiter goroutine has left. -/
def Waiter.cost : Waiter → Nat
  | .unborn => 4
  | .waiting => 3
  | .sending => 2
  | .closing => 1
  | .closed => 0

/-- A bound on the number of steps that change the state: it decreases with
each of them. -/
def measure (c : Flags) (s : State) : Nat :=
  (s.tasks.map (progCost c)).sum + progCost c s.prelude + s.matchCh.length + s.waiter.cost
    + (if s.exited then 0 else 1)

/-- The change an operation makes to the counter. -/
def Instr.dWg : Instr → Int
  | .add => 1
  | .done => -1
  | _ => 0

/-- The change an operation makes to the number of tokens in `fileAllowed`. -/
def Instr.dTok : Instr → Int
  | .acquire => -1
  | .release => 1
  | _ => 0

/-- The goroutines an operation starts. -/
def spawned (c : Flags) : Instr → List (List Instr)
  | .goDelve p n => [delve c p n]
  | .goScrape p n => [scrape c p n]
  | _ => []

/-- The values an operation sends on `match`. -/
def Instr.sent : Instr → List Str
  | .push r => [r]
  | _ => []

/-- The records the whole search is to produce: those of every root, in
order. -/
def allEmitted (c : Flags) (dirs : List (Str × Node)) : List Str :=
  dirs.flatMap fun d => emitted c d.1 d.2

/-- The records sent so far together with those the goroutines and `main`
have yet to cause, as a multiset. -/
def accounted (c : Flags) (s : State) : Multiset Str :=
  (s.pushed : Multiset Str) + (s.tasks.map fun t => (progEmits c t : Multiset Str)).sum
    + (progEmits c s.prelude : Multiset Str)

mutual
/-- Whether every path of the tree opens: the tree holds no path on which
`os.Open` never returns. -/
def Node.regular : Node → Bool
  | .noent => true
  | .file _ => true
  | .dir _ entries => entries.regular
  | .fifo => false
/-- Whether every path below the entries of a listing opens. -/
def Entries.regular : Entries → Bool
  | .nil => true
  | .cons _ _ node rest => node.regular && rest.regular
end

/-- Whether an operation returns whenever it is enabled, and so does every
goroutine started from it. -/
def Instr.regular : Instr → Bool
  | .hang => false
  | .goDelve _ n => n.regular
  | .goScrape _ n => n.regular
  | _ => true

/-- No goroutine, started or yet to be started, comes to a path that never
opens. -/
def RegularState (s : State) : Prop :=
  (∀ t ∈ s.tasks, ∀ op ∈ t, Instr.regular op = true) ∧
    ∀ op ∈ s.prelude, Instr.regular op = true

mutual
/-- Whether `delve(path)`, or a goroutine started below it, calls `os.Open` on
a path that never opens. -/
def reachesFifo (c : Flags) (path : Str) : Node → Bool
  | .noent => false
  | .file _ => false
  | .dir ok entries =>
    !(!c.allDirs && noiseDirs.contains path) && ok && entriesReachFifo c path entries
  | .fifo => !(!c.allDirs && noiseDirs.contains path)
/-- Whether the loop of `delve` over a listing starts a goroutine that calls
`os.Open` on a path that never opens. -/
def entriesReachFifo (c : Flags) (path : Str) : Entries → Bool
  | .nil => false
  | .cons name entryIsDir node rest =>
    (if entryIsDir then reachesFifo c (filepathJoin path name) node
     else if c.byName then false
     else !opens node)
    || entriesReachFifo c path rest
end

/-- One for an operation that never returns or starts a goroutine that comes
to one. -/
def Instr.hangN (c : Flags) : Instr → Nat
  | .hang => 1
  | .goDelve p n => if reachesFifo c p n then 1 else 0
  | .goScrape _ n => if opens n then 0 else 1
  | _ => 0

/-- The number of such operations in the rest of a goroutine. -/
def hangCount (c : Flags) (t : List Instr) : Nat := (t.map (Instr.hangN c)).sum

/-- The number of such operations in all goroutines and in `main`. -/
def hangMass (c : Flags) (s : State) : Nat :=
  (s.tasks.map (hangCount c)).sum + hangCount c s.prelude

/-- The tree of a directory that holds one named pipe, `pipe`. -/
def fifoTree : Node := .dir true (.cons (ascii "pipe") false .fifo .nil)

/-- A run on the root `.` with the named pipe up to the call of `os.Open` by
the `scrape` of the pipe. -/
def stuckFifo : State :=
  run (defaultFlags (ascii "o") reO)
    (initState (defaultFlags (ascii "o") reO) [(ascii ".", fifoTree)])
    [.main, .main, .main, .task 0, .task 0, .task 0, .task 1]

/-- The invariant of the program. -/
structure Inv (c : Flags) (s : State) : Prop where
  tasksOk : ∀ t ∈ s.tasks, TaskOk t
  preludeOk : PreludeOk s.prelude
  counter : s.wg = ((s.tasks.map registered).sum + pendingGo s.prelude : Nat)
  gate : s.fileAllowed + holders s = c.maxFiles
  history : s.out ++ s.matchCh = s.pushed
  buffer : s.matchCh.length ≤ c.mSize
  started : s.waiter ≠ .unborn → s.prelude = []
  signalled : s.waiter = .sending ∨ s.waiter = .closing ∨ s.waiter = .closed →
    ∀ t ∈ s.tasks, t = []
  left : s.exited = true → s.waiter = .closed ∧ s.matchCh = []

/-! ## Properties of the content scanner -/

theorem stringsContains_iff (s sub : Str) : stringsContains s sub = true ↔ sub <:+: s := by
  induction s with
  | nil => simp [stringsContains, List.isEmpty_iff]
  | cons b s ih =>
    simp only [stringsContains, hasPrefix, Bool.or_eq_true, ih, List.infix_cons_iff,
      List.isPrefixOf_iff_prefix]

theorem records_eq_readString (sp : Nat) (data : Str) (h : data ≠ []) :
    records sp data = (readString sp data).1 :: records sp (readString sp data).2.1 ∧
    (readString sp data).1 ≠ [] ∧
    (readString sp data).2.1.length < data.length := by
  induction data with
  | nil => exact absurd rfl h
  | cons b rest ih =>
    by_cases hb : b = sp
    · simp [readString, records, hb]
    · by_cases hr : rest = []
      · subst hr
        simp [readString, records, hb]
      · obtain ⟨h1, h2, h3⟩ := ih hr
        simp only [readString, records, hb, if_false]
        rw [h1]
        refine ⟨rfl, by simp, ?_⟩
        simp only [List.length_cons]
        omega

theorem readString_err_iff (sp : Nat) (data : Str) :
    ((readString sp data).2.2 = true ∧ (readString sp data).1.length ≤ 0) ↔ data = [] := by
  cases data with
  | nil => simp [readString]
  | cons b rest =>
    by_cases hb : b = sp <;> simp [readString, hb]

theorem mstr_eq (c : Flags) (path : Str) (ln : Nat) (s : Str) :
    mstr c path ln s = (if c.noPlumb then trimSuffix s [10]
      else path ++ ascii ":" ++ fmtInt ln ++ ascii ": " ++ trimSuffix s [10]) := by
  unfold mstr
  cases c.noPlumb <;> simp

/-- With fuel beyond the number of unread bytes the read loop runs to the end
of the input, and pushes the report of every record that matches. -/
theorem scanLoop_eq (c : Flags) (path : Str) : ∀ (fuel ln : Nat) (data : Str),
    data.length < fuel →
    scanLoop c path fuel ln data
      = ((records (sep c) data).enumFrom ln).filterMap (report c path) := by
  intro fuel
  induction fuel with
  | zero => intro ln data h; omega
  | succ fuel ih =>
    intro ln data h
    by_cases hd : data = []
    · subst hd
      simp [scanLoop, readString, records]
    · obtain ⟨h1, _, h3⟩ := records_eq_readString (sep c) data hd
      have hne : ¬ ((readString (sep c) data).2.2 = true ∧
          (readString (sep c) data).1.length ≤ 0) := by
        rw [readString_err_iff]; exact hd
      have hrec := ih (ln + 1) (readString (sep c) data).2.1 (by omega)
      rw [h1]
      simp only [scanLoop, hne, if_false, List.enumFrom_cons, List.filterMap_cons, report]
      rw [hrec]
      by_cases hm : matchesStr c (readString (sep c) data).1 = true
      · simp [hm, mstr_eq, report]
      · simp [hm, report]

theorem scrapeRecords_eq_of_scanned (c : Flags) (path content : Str)
    (h : skippedAsBinary c content = false) :
    scrapeRecords c path (.file (some content))
      = ((records (sep c) content).enumFrom 1).filterMap (report c path) := by
  by_cases hc : content = []
  · subst hc; simp [scrapeRecords, records]
  · simp only [scrapeRecords, hc, h, if_false]
    rw [scanLoop_eq c path _ _ _ (Nat.lt_succ_self _)]
    simp

theorem records_join (sp : Nat) (data : Str) : (records sp data).flatten = data := by
  induction data with
  | nil => rfl
  | cons b rest ih =>
    by_cases hb : b = sp
    · simp [records, hb, ih]
    · simp only [records, hb, if_false]
      cases hr : records sp rest with
      | nil => rw [hr] at ih; simp at ih; simp [← ih]
      | cons r rs => rw [hr] at ih; simp at ih; simp [← ih]

theorem records_append_sep (sp : Nat) (l rest : Str) (h : sp ∉ l) :
    records sp (l ++ sp :: rest) = (l ++ [sp]) :: records sp rest := by
  induction l with
  | nil => simp [records]
  | cons b l ih =>
    have hb : b ≠ sp := fun e => h (by simp [e])
    have hl : sp ∉ l := fun e => h (by simp [e])
    simp [records, hb, ih hl]

theorem records_no_sep (sp : Nat) (t : Str) (h : sp ∉ t) :
    records sp t = if t = [] then [] else [t] := by
  induction t with
  | nil => rfl
  | cons b t ih =>
    have hb : b ≠ sp := fun e => h (by simp [e])
    have ht : sp ∉ t := fun e => h (by simp [e])
    simp only [records, hb, if_false, ih ht]
    by_cases h0 : t = [] <;> simp [h0]

theorem records_lines (sp : Nat) (lines : List Str) (tail : Str)
    (hl : ∀ l ∈ lines, sp ∉ l) (ht : sp ∉ tail) :
    records sp ((lines.map (· ++ [sp])).flatten ++ tail)
      = lines.map (· ++ [sp]) ++ (if tail = [] then [] else [tail]) := by
  induction lines with
  | nil => simpa using records_no_sep sp tail ht
  | cons l lines ih =>
    have h1 : sp ∉ l := hl l (by simp)
    have h2 := ih (fun x hx => hl x (by simp [hx]))
    simp only [List.map_cons, List.flatten_cons, List.append_assoc, List.singleton_append,
      List.cons_append]
    rw [records_append_sep sp l _ h1]
    simpa using h2

theorem lineNumbers_pairwise (p : Nat × Str → Bool) (rs : List Str) (k : Nat) :
    (((rs.enumFrom k).filter p).map Prod.fst).Pairwise (· < ·) := by
  have h1 : ((rs.enumFrom k).map Prod.fst).Pairwise (· < ·) := by
    rw [List.enumFrom_map_fst]
    exact List.pairwise_lt_range' k rs.length
  exact h1.sublist ((List.filter_sublist _).map _)

/-- Claim C4.  For a file that `scrape` scans (opened and not skipped at the
content type check) the records pushed are, in order, one per record of the
content that satisfies `matches`, a final record without a separator
included: the bare text when `-N` is given and `path:N: text` otherwise, where
`N` is the 1-based index of the record among all records of the file and the
text is the record with a trailing newline removed.  The line numbers pushed
are strictly increasing, and the records are a partition of the content. -/
theorem scrape_pushes_matching_records_in_order (c : Flags) (path content : Str)
    (h : skippedAsBinary c content = false) :
    scrapeRecords c path (.file (some content))
      = (((records (sep c) content).enumFrom 1).filter fun p => matchesStr c p.2).map
          (fun p => if c.noPlumb then trimSuffix p.2 [10]
            else path ++ ascii ":" ++ fmtInt p.1 ++ ascii ": " ++ trimSuffix p.2 [10])
    ∧ ((((records (sep c) content).enumFrom 1).filter fun p => matchesStr c p.2).map
          Prod.fst).Pairwise (· < ·)
    ∧ (records (sep c) content).flatten = content := by
  refine ⟨?_, lineNumbers_pairwise _ _ _, records_join _ _⟩
  rw [scrapeRecords_eq_of_scanned c path content h, ← List.filterMap_eq_map, List.filterMap_filter]
  congr 1

theorem trimSuffix_append_nl (l : Str) : trimSuffix (l ++ [10]) [10] = l := by
  simp [trimSuffix, List.isSuffixOf]

theorem contains_nl_iff (s : Str) : stringsContains s [10] = true ↔ 10 ∈ s := by
  rw [stringsContains_iff]
  constructor
  · intro h; exact h.subset (by simp)
  · intro h
    obtain ⟨a, b, rfl⟩ := List.append_of_mem h
    exact ⟨a, b, by simp⟩

/-- Claim C10.  `scrape` tests the record as read, its separator included,
and strips the newline afterwards.  For a scanned file made of the lines
`lines`, each ended by the separator, and an unterminated rest `tail`: a line
`l` is reported exactly when `matches (l ++ [sep])` holds.  So in literal mode
with the default separator and the pattern `"\n"` every terminated line is
reported although none of them contains the pattern, and the literal pattern
`"o\n"` reports the line `hello`. -/
theorem scrape_matches_on_raw_record (c : Flags) (path : Str) (lines : List Str) (tail : Str)
    (hl : ∀ l ∈ lines, sep c ∉ l) (ht : sep c ∉ tail)
    (h : skippedAsBinary c ((lines.map (· ++ [sep c])).flatten ++ tail) = false) :
    (scrapeRecords c path (.file (some ((lines.map (· ++ [sep c])).flatten ++ tail)))
      = (lines.enumFrom 1).filterMap (fun p =>
          if matchesStr c (p.2 ++ [sep c]) then
            some (if c.noPlumb then trimSuffix (p.2 ++ [sep c]) [10]
              else path ++ ascii ":" ++ fmtInt p.1 ++ ascii ": "
                ++ trimSuffix (p.2 ++ [sep c]) [10])
          else none)
        ++ (if tail ≠ [] ∧ matchesStr c tail = true then
              [if c.noPlumb then trimSuffix tail [10]
                else path ++ ascii ":" ++ fmtInt (lines.length + 1) ++ ascii ": "
                  ++ trimSuffix tail [10]]
            else []))
    ∧ (c.literal = true → c.winFlag = false → c.raw = [10] →
        scrapeRecords c path (.file (some ((lines.map (· ++ [sep c])).flatten ++ tail)))
          = (lines.enumFrom 1).map (fun p =>
              if c.noPlumb then p.2 else path ++ ascii ":" ++ fmtInt p.1 ++ ascii ": " ++ p.2)
        ∧ ∀ l ∈ lines, stringsContains l c.raw = false)
    ∧ scrapeRecords { defaultFlags (ascii "o\n") reO with literal := true, allMimes := true }
        (ascii "a.txt") (.file (some (ascii "hello\n"))) = [ascii "a.txt:1: hello"] := by
  have key : scrapeRecords c path (.file (some ((lines.map (· ++ [sep c])).flatten ++ tail)))
      = (lines.enumFrom 1).filterMap (fun p =>
          if matchesStr c (p.2 ++ [sep c]) then
            some (if c.noPlumb then trimSuffix (p.2 ++ [sep c]) [10]
              else path ++ ascii ":" ++ fmtInt p.1 ++ ascii ": "
                ++ trimSuffix (p.2 ++ [sep c]) [10])
          else none)
        ++ (if tail ≠ [] ∧ matchesStr c tail = true then
              [if c.noPlumb then trimSuffix tail [10]
                else path ++ ascii ":" ++ fmtInt (lines.length + 1) ++ ascii ": "
                  ++ trimSuffix tail [10]]
            else []) := by
    rw [scrapeRecords_eq_of_scanned c path _ h, records_lines (sep c) lines tail hl ht,
      List.enumFrom_append, List.filterMap_append, List.enumFrom_map, List.filterMap_map]
    congr 1
    by_cases h0 : tail = []
    · simp [h0]
    · by_cases hm : matchesStr c tail = true
      · simp [h0, hm, report, List.enumFrom, Nat.add_comm]
      · simp [h0, hm, report, List.enumFrom]
  refine ⟨key, ?_, by decide⟩
  intro hlit hwin hraw
  have hsep : sep c = 10 := by simp [sep, hwin]
  rw [hsep] at hl ht
  have hno : ∀ l ∈ lines, stringsContains l c.raw = false := by
    intro l hmem
    rw [hraw]
    have := (contains_nl_iff l).not.mpr (hl l hmem)
    simpa using this
  refine ⟨?_, hno⟩
  rw [key]
  have htail : matchesStr c tail = false := by
    have := (contains_nl_iff tail).not.mpr ht
    simpa [matchesStr, hlit, hraw] using this
  have hline : ∀ l : Str, matchesStr c (l ++ [10]) = true := by
    intro l
    simp [matchesStr, hlit, hraw, contains_nl_iff]
  simp [htail, hline, hsep, trimSuffix_append_nl, ← List.filterMap_eq_map, Function.comp_def]

theorem delveEntries_byName (c : Flags) (h : c.byName = true) (path : Str) :
    ∀ es : Entries,
      (∀ i ∈ delveEntries c path es, i.isGoScrape = false) ∧
      (delveEntries c path es).filterMap Instr.pushOf
        = es.toList.filterMap (fun e =>
            if !e.2.1 && matchesStr c (filepathJoin path e.1) then some (filepathJoin path e.1)
            else none)
  | .nil => by simp [delveEntries, Entries.toList]
  | .cons name d node rest => by
    obtain ⟨ih1, ih2⟩ := delveEntries_byName c h path rest
    cases d with
    | true =>
      refine ⟨?_, ?_⟩
      · intro i hi
        simp only [delveEntries, if_true, List.cons_append, List.nil_append,
          List.mem_cons] at hi
        rcases hi with rfl | rfl | hi
        · rfl
        · rfl
        · exact ih1 i hi
      · simp [delveEntries, Entries.toList, Instr.pushOf, ih2]
    | false =>
      by_cases hm : matchesStr c (filepathJoin path name) = true
      · refine ⟨?_, ?_⟩
        · intro i hi
          simp only [delveEntries, h, hm, if_true, List.cons_append, List.nil_append,
            List.mem_cons, Bool.false_eq_true, if_false] at hi
          rcases hi with rfl | hi
          · rfl
          · exact ih1 i hi
        · simp [delveEntries, Entries.toList, Instr.pushOf, ih2, h, hm]
      · refine ⟨?_, ?_⟩
        · intro i hi
          simp only [delveEntries, h, hm, if_true, List.nil_append,
            Bool.false_eq_true, if_false] at hi
          exact ih1 i hi
        · simp [delveEntries, Entries.toList, Instr.pushOf, ih2, h, hm]

/-- Claim C5.  In match-by-name mode the loop of `delve` over a listing starts
no `scrape`, and the values it sends are, in listing order, the joined paths
`filepath.Join(path, name)` of the entries that are not directories and
satisfy `matches`, nothing added.  For the directory `.` with the files
`a.txt` and `bee.txt` and the expression `^a` the one value sent is
`a.txt`. -/
theorem delve_byName_pushes_joined_path (c : Flags) (h : c.byName = true) (path : Str)
    (es : Entries) :
    (∀ i ∈ delveEntries c path es, i.isGoScrape = false)
    ∧ (delveEntries c path es).filterMap Instr.pushOf
        = es.toList.filterMap (fun e =>
            if !e.2.1 && matchesStr c (filepathJoin path e.1) then some (filepathJoin path e.1)
            else none)
    ∧ delve { defaultFlags (ascii "^a") reCaretA with byName := true } (ascii ".") nameTree
        = [.push (ascii "a.txt"), .done]
    ∧ emitted { defaultFlags (ascii "^a") reCaretA with byName := true } (ascii ".") nameTree
        = [ascii "a.txt"] :=
  ⟨(delveEntries_byName c h path es).1, (delveEntries_byName c h path es).2, by rfl, by decide⟩

set_option maxRecDepth 100000 in
/-- Claim C3, evaluated where it fails.  With the default flags `delve` on
`proj` starts a `delve` on `proj/.git`, and that one lists the directory and
starts a `scrape` on `proj/.git/config`: the exclusion test compares the whole
path with `.git`, not its base name.  With `-b` the line of that file is
emitted. -/
theorem delve_descends_into_nested_git :
    delve (defaultFlags (ascii "o") reO) (ascii "proj") projTree
      = [.add, .goDelve (ascii "proj/.git") gitDir, .done]
    ∧ delve (defaultFlags (ascii "o") reO) (ascii "proj/.git") gitDir
      = [.add, .goScrape (ascii "proj/.git/config") (.file (some (ascii "o\n"))), .done]
    ∧ emitted { defaultFlags (ascii "o") reO with allMimes := true } (ascii "proj") projTree
      = [ascii "proj/.git/config:1: o"] :=
  ⟨by rfl, by rfl, by decide⟩

set_option maxRecDepth 100000 in
/-- Claim C2, evaluated where it fails.  The content `"hello\n"` is not of a
generic binary type, yet `scrape` skips the file: it classifies its whole
512-byte buffer, whose unread part is zero bytes.  With `-b` the line is
reported. -/
theorem scrape_skips_short_text_file :
    stringsContains (DetectContentType (ascii "hello\n")) (ascii "octet-stream") = false
    ∧ skippedAsBinary (defaultFlags (ascii "o") reO) (ascii "hello\n") = true
    ∧ scrapeRecords (defaultFlags (ascii "o") reO) (ascii "a.txt")
        (.file (some (ascii "hello\n"))) = []
    ∧ scrapeRecords { defaultFlags (ascii "o") reO with allMimes := true } (ascii "a.txt")
        (.file (some (ascii "hello\n"))) = [ascii "a.txt:1: hello"] :=
  ⟨by decide, by decide, by decide, by decide⟩

/-- Claim C4 at the content `"hello\nworld"` of `a.txt`, scanned with `-b`. -/
theorem scrape_pushes_matching_records_in_order_witness :
    scrapeRecords { defaultFlags (ascii "o") reO with allMimes := true } (ascii "a.txt")
        (.file (some (ascii "hello\nworld")))
      = [ascii "a.txt:1: hello", ascii "a.txt:2: world"] := by
  rw [(scrape_pushes_matching_records_in_order
    { defaultFlags (ascii "o") reO with allMimes := true } (ascii "a.txt")
    (ascii "hello\nworld") (by decide)).1]
  decide

/-- Claim C10 at the single line `hello` and the literal pattern `"o\n"`. -/
theorem scrape_matches_on_raw_record_witness :
    scrapeRecords { defaultFlags (ascii "o\n") reO with literal := true, allMimes := true }
        (ascii "a.txt") (.file (some (ascii "hello\n")))
      = [ascii "a.txt:1: hello"] := by
  have h := (scrape_matches_on_raw_record
    { defaultFlags (ascii "o\n") reO with literal := true, allMimes := true }
    (ascii "a.txt") [ascii "hello"] [] (by decide) (by decide) (by decide)).1
  rw [show ascii "hello\n" = ([ascii "hello"].map
      (· ++ [sep { defaultFlags (ascii "o\n") reO with literal := true, allMimes := true }])).flatten
      ++ [] from by decide, h]
  decide

/-- Claim C5 at the listing of scenario 3. -/
theorem delve_byName_pushes_joined_path_witness :
    (delveEntries { defaultFlags (ascii "^a") reCaretA with byName := true } (ascii ".")
        (.cons (ascii "a.txt") false (.file (some (ascii "x\n")))
          (.cons (ascii "bee.txt") false (.file (some (ascii "y\n"))) .nil))).filterMap
        Instr.pushOf = [ascii "a.txt"] := by
  rw [(delve_byName_pushes_joined_path
    { defaultFlags (ascii "^a") reCaretA with byName := true } rfl (ascii ".")
    (.cons (ascii "a.txt") false (.file (some (ascii "x\n")))
      (.cons (ascii "bee.txt") false (.file (some (ascii "y\n"))) .nil))).2.1]
  decide

/-! ## Properties of the transition system -/

theorem exec_spec (c : Flags) (s s1 : State) (op : Instr) (h : exec c s op = some s1) :
    s1.wg = s.wg + op.dWg ∧ s1.tasks = s.tasks ++ spawned c op ∧
    (s1.fileAllowed : Int) = s.fileAllowed + op.dTok ∧
    s1.matchCh = s.matchCh ++ op.sent ∧ s1.pushed = s.pushed ++ op.sent ∧
    s1.out = s.out ∧ s1.prelude = s.prelude ∧ s1.waiter = s.waiter ∧ s1.exited = s.exited ∧
    (op.sent ≠ [] → s.matchCh.length < c.mSize) ∧ s1.fileAllowed ≤ c.maxFiles ⊔ s.fileAllowed := by
  cases op <;> simp only [exec] at h
  case add => cases h; simp [Instr.dWg, spawned, Instr.dTok, Instr.sent]
  case hang => cases h
  case done => cases h; simp [Instr.dWg, spawned, Instr.dTok, Instr.sent]; rfl
  case goDelve p n => cases h; simp [Instr.dWg, spawned, Instr.dTok, Instr.sent]
  case goScrape p n => cases h; simp [Instr.dWg, spawned, Instr.dTok, Instr.sent]
  case push r =>
    split at h
    · cases h; simp [Instr.dWg, spawned, Instr.dTok, Instr.sent]; assumption
    · cases h
  case acquire =>
    split at h
    · cases h; simp [Instr.dWg, spawned, Instr.dTok, Instr.sent]; omega
    · cases h
  case release =>
    split at h
    · cases h; simp [Instr.dWg, spawned, Instr.dTok, Instr.sent]; omega
    · cases h


theorem delveTail_ne_nil {t : List Instr} (h : DelveTail t) : t ≠ [] := by
  cases h <;> simp

theorem scrapeTail_ne_nil {t : List Instr} (h : ScrapeTail t) : t ≠ [] := by
  cases h <;> simp

theorem registered_delveTail {t : List Instr} (h : DelveTail t) : registered t = 1 := by
  cases h <;> simp [registered, live, pendingGo]

theorem registered_scrapeTail {t : List Instr} (h : ScrapeTail t) : registered t = 1 := by
  cases h <;> simp [registered, live, pendingGo]

theorem holdsToken_delveTail {t : List Instr} (h : DelveTail t) : holdsToken t = false := by
  induction h <;> simp_all [holdsToken]

theorem holdsToken_scrapeTail {t : List Instr} (h : ScrapeTail t) : holdsToken t = true := by
  induction h <;> simp_all [holdsToken]

theorem delveEntries_tail (c : Flags) (path : Str) {t : List Instr} (ht : DelveTail t) :
    ∀ es : Entries, DelveTail (delveEntries c path es ++ t)
  | .nil => by simpa [delveEntries] using ht
  | .cons name d node rest => by
    have ih := delveEntries_tail c path ht rest
    simp only [delveEntries]
    split
    · exact DelveTail.goDelve _ _ ih
    · split
      · split
        · exact DelveTail.push _ ih
        · simpa using ih
      · exact DelveTail.goScrape _ _ ih

theorem delve_tail (c : Flags) (path : Str) (n : Node) : DelveTail (delve c path n) := by
  unfold delve
  split
  · exact DelveTail.done
  · split
    · exact DelveTail.hang DelveTail.done
    · split
      · exact DelveTail.goScrape _ _ DelveTail.done
      · split
        · exact delveEntries_tail c path DelveTail.done _
        · exact DelveTail.done

theorem scrapeTail_pushes (rs : List Str) :
    ScrapeTail (rs.map Instr.push ++ [Instr.release, Instr.done]) := by
  induction rs with
  | nil => exact ScrapeTail.release
  | cons r rs ih => exact ScrapeTail.push r ih

theorem scrape_ok (c : Flags) (path : Str) (n : Node) : TaskOk (scrape c path n) := by
  unfold scrape
  split
  · exact TaskOk.waiting (scrapeTail_pushes _)
  · exact TaskOk.waiting (ScrapeTail.hang (scrapeTail_pushes _))

theorem spawned_ok (c : Flags) (op : Instr) :
    ∀ p ∈ spawned c op, TaskOk p ∧ registered p = 1 ∧ holdsN p = 0 := by
  intro p hp
  cases op <;> simp only [spawned, List.mem_singleton, List.not_mem_nil] at hp
  · subst hp
    exact ⟨TaskOk.delve (delve_tail _ _ _), registered_delveTail (delve_tail _ _ _),
      by simp [holdsN, holdsToken_delveTail (delve_tail _ _ _)]⟩
  · subst hp
    exact ⟨scrape_ok _ _ _, by simp [scrape, registered, live, pendingGo],
      by simp [scrape, holdsN, holdsToken]⟩

theorem registered_cons (op : Instr) (rest : List Instr) :
    registered (op :: rest) = 1 + pendingGo (op :: rest) := by
  simp [registered, live]

theorem taskOk_cons (c : Flags) (op : Instr) (rest : List Instr) (h : TaskOk (op :: rest)) :
    TaskOk rest ∧
    (registered rest : Int) + (spawned c op).length = registered (op :: rest) + op.dWg ∧
    (holdsN rest : Int) + op.dTok = holdsN (op :: rest) := by
  cases h with
  | delve h =>
    cases h with
    | done => exact ⟨TaskOk.returned, by simp [registered, live, pendingGo, spawned, Instr.dWg],
        by simp [holdsN, holdsToken, Instr.dTok]⟩
    | goDelve p n h =>
      exact ⟨TaskOk.startDelve p n h,
        by simp [registered, live, pendingGo, spawned, Instr.dWg],
        by simp [holdsN, holdsToken, Instr.dTok]⟩
    | goScrape p n h =>
      exact ⟨TaskOk.startScrape p n h,
        by simp [registered, live, pendingGo, spawned, Instr.dWg],
        by simp [holdsN, holdsToken, Instr.dTok]⟩
    | push r h =>
      exact ⟨TaskOk.delve h,
        by rw [registered_cons, registered_delveTail h]; simp [pendingGo, spawned, Instr.dWg],
        by simp [holdsN, holdsToken, Instr.dTok]⟩
    | hang h =>
      exact ⟨TaskOk.delve h,
        by rw [registered_cons, registered_delveTail h]; simp [pendingGo, spawned, Instr.dWg],
        by simp [holdsN, holdsToken, Instr.dTok]⟩
  | startDelve p n h =>
    exact ⟨TaskOk.delve h,
      by rw [registered_cons, registered_delveTail h]; simp [pendingGo, spawned, Instr.dWg],
      by simp [holdsN, holdsToken, Instr.dTok]⟩
  | startScrape p n h =>
    exact ⟨TaskOk.delve h,
      by rw [registered_cons, registered_delveTail h]; simp [pendingGo, spawned, Instr.dWg],
      by simp [holdsN, holdsToken, Instr.dTok]⟩
  | waiting h =>
    exact ⟨TaskOk.holding h,
      by rw [registered_cons, registered_scrapeTail h]; simp [pendingGo, spawned, Instr.dWg],
      by simp [holdsN, holdsToken, holdsToken_scrapeTail h, Instr.dTok]⟩
  | holding h =>
    cases h with
    | release =>
      exact ⟨TaskOk.delve DelveTail.done,
        by simp [registered, live, pendingGo, spawned, Instr.dWg],
        by simp [holdsN, holdsToken, Instr.dTok]⟩
    | push r h =>
      exact ⟨TaskOk.holding h,
        by rw [registered_cons, registered_scrapeTail h]; simp [pendingGo, spawned, Instr.dWg],
        by simp [holdsN, holdsToken, Instr.dTok]⟩
    | hang h =>
      exact ⟨TaskOk.holding h,
        by rw [registered_cons, registered_scrapeTail h]; simp [pendingGo, spawned, Instr.dWg],
        by simp [holdsN, holdsToken, Instr.dTok]⟩

theorem pendingGo_spawnRoots (ds : List (Str × Node)) : pendingGo (spawnRoots ds) = 0 := by
  cases ds with
  | nil => rfl
  | cons d ds => rfl

theorem preludeOk_cons (c : Flags) (op : Instr) (rest : List Instr)
    (h : PreludeOk (op :: rest)) :
    PreludeOk rest ∧
    (pendingGo rest : Int) + (spawned c op).length = pendingGo (op :: rest) + op.dWg ∧
    op.dTok = 0 ∧ op.sent = [] ∧ op ≠ .hang := by
  have key : ∀ p, PreludeOk p → p = op :: rest → PreludeOk rest ∧
      (pendingGo rest : Int) + (spawned c op).length = pendingGo (op :: rest) + op.dWg ∧
      op.dTok = 0 ∧ op.sent = [] ∧ op ≠ .hang := by
    intro p h hp
    cases h with
    | roots ds =>
      cases ds with
      | nil => simp [spawnRoots] at hp
      | cons d ds =>
        simp only [spawnRoots, List.cons.injEq] at hp
        obtain ⟨rfl, rfl⟩ := hp
        exact ⟨PreludeOk.start _ _ _, by simp [pendingGo, spawned, Instr.dWg],
          by simp [Instr.dTok], by simp [Instr.sent], by simp⟩
    | start p n ds =>
      simp only [List.cons.injEq] at hp
      obtain ⟨rfl, rfl⟩ := hp
      exact ⟨PreludeOk.roots _, by
          rw [pendingGo_spawnRoots]; simp [spawned, Instr.dWg, pendingGo],
        by simp [Instr.dTok], by simp [Instr.sent], by simp⟩
  exact key _ h rfl

theorem getD_mem {l : List (List Instr)} {i : Nat} {op : Instr} {rest : List Instr}
    (h : l.getD i [] = op :: rest) : op :: rest ∈ l := by
  induction l generalizing i with
  | nil => simp at h
  | cons t l ih =>
    cases i with
    | zero => simp only [List.getD_cons_zero] at h; simp [h]
    | succ j => simp only [List.getD_cons_succ] at h; exact List.mem_cons_of_mem _ (ih h)

theorem sum_map_update {M : Type} [AddCommMonoid M] (f : List Instr → M)
    (l new : List (List Instr)) (i : Nat) (op : Instr) (rest : List Instr)
    (h : l.getD i [] = op :: rest) :
    (((l ++ new).set i rest).map f).sum + f (op :: rest)
      = (l.map f).sum + f rest + (new.map f).sum := by
  induction l generalizing i with
  | nil => simp at h
  | cons t l ih =>
    cases i with
    | zero =>
      simp only [List.getD_cons_zero] at h
      subst h
      simp only [List.cons_append, List.set_cons_zero, List.map_cons, List.sum_cons,
        List.map_append, List.sum_append]
      abel
    | succ j =>
      simp only [List.getD_cons_succ] at h
      have := ih j h
      simp only [List.cons_append, List.set_cons_succ, List.map_cons, List.sum_cons]
      rw [add_assoc, this]
      abel

theorem mem_update {l new : List (List Instr)} {i : Nat} {rest t : List Instr}
    (h : t ∈ (l ++ new).set i rest) : t ∈ l ∨ t = rest ∨ t ∈ new := by
  rcases List.mem_or_eq_of_mem_set h with h | h
  · rcases List.mem_append.mp h with h | h
    · exact Or.inl h
    · exact Or.inr (Or.inr h)
  · exact Or.inr (Or.inl h)

theorem sum_eq_length {l : List (List Instr)} {f : List Instr → Nat} (h : ∀ t ∈ l, f t = 1) :
    (l.map f).sum = l.length := by
  induction l with
  | nil => rfl
  | cons t l ih =>
    simp only [List.map_cons, List.sum_cons, List.length_cons]
    rw [h t (by simp), ih (fun x hx => h x (by simp [hx]))]
    omega

theorem sum_eq_zero {l : List (List Instr)} {f : List Instr → Nat} (h : ∀ t ∈ l, f t = 0) :
    (l.map f).sum = 0 := by
  induction l with
  | nil => rfl
  | cons t l ih =>
    simp only [List.map_cons, List.sum_cons]
    rw [h t (by simp), ih (fun x hx => h x (by simp [hx]))]

theorem sent_length_le (op : Instr) : op.sent.length ≤ 1 := by
  cases op <;> simp [Instr.sent]

theorem inv_init (c : Flags) (dirs : List (Str × Node)) : Inv c (initState c dirs) where
  tasksOk := by simp [initState]
  preludeOk := PreludeOk.roots dirs
  counter := by simp [initState, pendingGo_spawnRoots]
  gate := by simp [initState, holders]
  history := by simp [initState]
  buffer := by simp [initState]
  started := by simp [initState]
  signalled := by simp [initState]
  left := by simp [initState]


theorem inv_exec_task (c : Flags) (s s1 : State) (i : Nat) (op : Instr) (rest : List Instr)
    (hinv : Inv c s) (hget : s.tasks.getD i [] = op :: rest) (hex : exec c s op = some s1) :
    Inv c { s1 with tasks := s1.tasks.set i rest } := by
  obtain ⟨hwg, htasks, htok, hch, hpushed, hout, hprel, hwait, hexit, hguard, _⟩ :=
    exec_spec c s s1 op hex
  have hmem := getD_mem hget
  obtain ⟨hrest, hreg, hhold⟩ := taskOk_cons c op rest (hinv.tasksOk _ hmem)
  have hsp := spawned_ok c op
  have hnosig : ¬ (s.waiter = .sending ∨ s.waiter = .closing ∨ s.waiter = .closed) := by
    intro h
    have := hinv.signalled h _ hmem
    simp at this
  refine ⟨?_, ?_, ?_, ?_, ?_, ?_, ?_, ?_, ?_⟩
  · intro t ht
    simp only [htasks] at ht
    rcases mem_update ht with h | h | h
    · exact hinv.tasksOk t h
    · exact h ▸ hrest
    · exact (hsp t h).1
  · simpa [hprel] using hinv.preludeOk
  · have h1 := sum_map_update registered s.tasks (spawned c op) i op rest hget
    have h2 : ((spawned c op).map registered).sum = (spawned c op).length :=
      sum_eq_length fun t ht => (hsp t ht).2.1
    have h3 := hinv.counter
    simp only [htasks, hprel, hwg]
    push_cast at h3 hreg ⊢
    have h1' : ((((s.tasks ++ spawned c op).set i rest).map registered).sum : Int)
        + registered (op :: rest)
        = (s.tasks.map registered).sum + registered rest + (spawned c op).length := by
      rw [← h2]; exact_mod_cast h1
    linarith
  · have h1 := sum_map_update holdsN s.tasks (spawned c op) i op rest hget
    have h2 : ((spawned c op).map holdsN).sum = 0 := sum_eq_zero fun t ht => (hsp t ht).2.2
    have h3 := hinv.gate
    simp only [holders, htasks] at h3 ⊢
    rw [h2] at h1
    have h1' : ((((s.tasks ++ spawned c op).set i rest).map holdsN).sum : Int)
        + holdsN (op :: rest) = (s.tasks.map holdsN).sum + holdsN rest := by
      exact_mod_cast h1
    have h3' : (s.fileAllowed : Int) + (s.tasks.map holdsN).sum = c.maxFiles := by
      exact_mod_cast h3
    have : (s1.fileAllowed : Int) + (((s.tasks ++ spawned c op).set i rest).map holdsN).sum
        = c.maxFiles := by linarith
    exact_mod_cast this
  · simp only [hout, hch, hpushed, ← hinv.history, List.append_assoc]
  · simp only [hch, List.length_append]
    have := sent_length_le op
    have hb := hinv.buffer
    by_cases h0 : op.sent = []
    · simp [h0, hb]
    · have := hguard h0
      omega
  · simpa [hwait, hprel] using hinv.started
  · intro h
    simp only [hwait] at h
    exact absurd h hnosig
  · intro h
    simp only [hexit] at h
    exact absurd (Or.inr (Or.inr (hinv.left h).1)) hnosig

theorem inv_exec_main (c : Flags) (s s1 : State) (op : Instr) (rest : List Instr)
    (hinv : Inv c s) (hp : s.prelude = op :: rest) (hex : exec c s op = some s1) :
    Inv c { s1 with prelude := rest } := by
  obtain ⟨hwg, htasks, htok, hch, hpushed, hout, hprel, hwait, hexit, hguard, _⟩ :=
    exec_spec c s s1 op hex
  obtain ⟨hrest, hreg, htok0, hsent, _⟩ := preludeOk_cons c op rest (hp ▸ hinv.preludeOk)
  have hsp := spawned_ok c op
  have hunborn : s.waiter = .unborn := by
    by_contra h
    have := hinv.started h
    simp [hp] at this
  refine ⟨?_, hrest, ?_, ?_, ?_, ?_, ?_, ?_, ?_⟩
  · intro t ht
    simp only [htasks] at ht
    rcases List.mem_append.mp ht with h | h
    · exact hinv.tasksOk t h
    · exact (hsp t h).1
  · have h2 : ((spawned c op).map registered).sum = (spawned c op).length :=
      sum_eq_length fun t ht => (hsp t ht).2.1
    have h3 := hinv.counter
    simp only [htasks, hwg, List.map_append, List.sum_append, h2]
    rw [hp] at h3
    push_cast at h3 hreg ⊢
    linarith
  · have h2 : ((spawned c op).map holdsN).sum = 0 := sum_eq_zero fun t ht => (hsp t ht).2.2
    have h3 := hinv.gate
    simp only [holders, htasks, List.map_append, List.sum_append, h2] at h3 ⊢
    rw [htok0] at htok
    have : s1.fileAllowed = s.fileAllowed := by exact_mod_cast (by simpa using htok)
    omega
  · simp only [hout, hch, hpushed, hsent, List.append_nil, hinv.history]
  · simp only [hch, hsent, List.append_nil]
    exact hinv.buffer
  · intro h
    simp only [hwait] at h
    exact absurd hunborn h
  · intro h
    simp only [hwait, hunborn] at h
    simp at h
  · intro h
    simp only [hexit] at h
    have := (hinv.left h).1
    rw [hunborn] at this
    cases this


theorem spinning_iff (s : State) :
    s.spinning = true ↔ s.prelude = [] ∧ s.waiter ≠ .unborn ∧ s.exited = false := by
  simp [State.spinning, List.isEmpty_iff, and_assoc]

theorem tasks_nil_of_counter (c : Flags) (s : State) (hinv : Inv c s) (hp : s.prelude = [])
    (hwg : s.wg = 0) : ∀ t ∈ s.tasks, t = [] := by
  have h := hinv.counter
  rw [hwg, hp] at h
  have h0 : (s.tasks.map registered).sum = 0 := by
    simp only [pendingGo, Nat.add_zero] at h
    exact_mod_cast h.symm
  intro t ht
  have h1 : registered t ≤ (s.tasks.map registered).sum :=
    List.single_le_sum (by simp) _ (List.mem_map_of_mem _ ht)
  have h2 : registered t = 0 := by omega
  cases t with
  | nil => rfl
  | cons op rest => simp [registered, live] at h2

theorem inv_step (c : Flags) (s s1 : State) (a : Actor) (hinv : Inv c s)
    (hs : step c s a = some s1) : Inv c s1 := by
  cases a with
  | main =>
    simp only [step] at hs
    split at hs
    · rename_i op rest hp
      cases hex : exec c s op with
      | none => simp [hex] at hs
      | some s2 =>
        simp only [hex, Option.map_some', Option.some.injEq] at hs
        subst hs
        exact inv_exec_main c s s2 op rest hinv hp hex
    · rename_i hp
      split at hs
      · rename_i hw
        cases hs
        exact ⟨hinv.tasksOk, hinv.preludeOk, hinv.counter, hinv.gate, hinv.history,
          hinv.buffer, fun _ => hp, by simp, fun h => by
            have := (hinv.left h).1
            rw [hw] at this
            cases this⟩
      · cases hs
  | task i =>
    simp only [step] at hs
    split at hs
    · cases hs
    · rename_i op rest hget
      cases hex : exec c s op with
      | none => simp [hex] at hs
      | some s2 =>
        simp only [hex, Option.map_some', Option.some.injEq] at hs
        subst hs
        exact inv_exec_task c s s2 i op rest hinv hget hex
  | waiter =>
    simp only [step] at hs
    split at hs
    · rename_i hw
      split at hs
      · rename_i hwg
        cases hs
        have hp := hinv.started (by rw [hw]; simp)
        exact ⟨hinv.tasksOk, hinv.preludeOk, hinv.counter, hinv.gate, hinv.history,
          hinv.buffer, fun _ => hp, fun _ => tasks_nil_of_counter c s hinv hp hwg,
          fun h => by
            have := (hinv.left h).1
            rw [hw] at this
            cases this⟩
      · cases hs
    · rename_i hw
      cases hs
      have hp := hinv.started (by rw [hw]; simp)
      exact ⟨hinv.tasksOk, hinv.preludeOk, hinv.counter, hinv.gate, hinv.history,
        hinv.buffer, fun _ => hp, fun _ => hinv.signalled (Or.inr (Or.inl hw)),
        fun h => by
          have := (hinv.left h).1
          rw [hw] at this
          cases this⟩
    · cases hs
  | recvMatch =>
    simp only [step] at hs
    split at hs
    · rename_i hspin
      obtain ⟨hp, hw, hx⟩ := (spinning_iff s).mp hspin
      split at hs
      · rename_i r rest hch
        cases hs
        refine ⟨hinv.tasksOk, hinv.preludeOk, hinv.counter, hinv.gate, ?_, ?_, hinv.started,
          hinv.signalled, ?_⟩
        · simp only [List.append_assoc, List.singleton_append, ← hinv.history, hch]
        · have := hinv.buffer
          simp only [hch, List.length_cons] at this
          simp only
          omega
        · intro h
          simp only [hx] at h
          cases h
      · cases hs
    · cases hs
  | recvSync i =>
    simp only [step] at hs
    split at hs
    · rename_i hspin
      simp only [Bool.and_eq_true, beq_iff_eq] at hspin
      obtain ⟨hspin, hm⟩ := hspin
      obtain ⟨hp, hw, hx⟩ := (spinning_iff s).mp hspin
      split at hs
      · rename_i r rest hget
        cases hs
        have hmem := getD_mem hget
        obtain ⟨hrest, hreg, hhold⟩ := taskOk_cons c (.push r) rest (hinv.tasksOk _ hmem)
        have hch : s.matchCh = [] := by
          have := hinv.buffer
          rw [hm] at this
          exact List.length_eq_zero.mp (by omega)
        have hnosig : ¬ (s.waiter = .sending ∨ s.waiter = .closing ∨ s.waiter = .closed) := by
          intro h
          have := hinv.signalled h _ hmem
          simp at this
        refine ⟨?_, hinv.preludeOk, ?_, ?_, ?_, hinv.buffer, hinv.started, ?_, ?_⟩
        · intro t ht
          rcases List.mem_or_eq_of_mem_set ht with h | h
          · exact hinv.tasksOk t h
          · exact h ▸ hrest
        · have h1 := sum_map_update registered s.tasks [] i (.push r) rest hget
          have h3 := hinv.counter
          simp only [List.append_nil, List.map_nil, List.sum_nil, Nat.add_zero] at h1
          simp only [spawned, List.length_nil, Instr.dWg] at hreg
          push_cast at h3 hreg ⊢
          have h1' : (((s.tasks.set i rest).map registered).sum : Int)
              + registered (Instr.push r :: rest)
              = (s.tasks.map registered).sum + registered rest := by exact_mod_cast h1
          linarith
        · have h1 := sum_map_update holdsN s.tasks [] i (.push r) rest hget
          have h3 := hinv.gate
          simp only [List.append_nil, List.map_nil, List.sum_nil, Nat.add_zero] at h1
          simp only [Instr.dTok, add_zero] at hhold
          have hh : holdsN rest = holdsN (Instr.push r :: rest) := by exact_mod_cast hhold
          simp only [holders] at h3 ⊢
          omega
        · simp only [← hinv.history, hch, List.append_nil]
        · intro h
          exact absurd h hnosig
        · intro h
          simp only [hx] at h
          cases h
      · cases hs
    · cases hs
  | recvDone =>
    simp only [step] at hs
    split at hs
    · rename_i hspin
      obtain ⟨hp, hw, hx⟩ := (spinning_iff s).mp hspin
      split at hs
      · rename_i hws
        cases hs
        exact ⟨hinv.tasksOk, hinv.preludeOk, hinv.counter, hinv.gate, hinv.history,
          hinv.buffer, fun _ => hp, fun _ => hinv.signalled (Or.inl hws), fun h => by
            simp only [hx] at h
            cases h⟩
      · rename_i hwc
        split at hs
        · rename_i hlen
          cases hs
          exact ⟨hinv.tasksOk, hinv.preludeOk, hinv.counter, hinv.gate, hinv.history,
            hinv.buffer, hinv.started, hinv.signalled,
            fun _ => ⟨hwc, List.length_eq_zero.mp (Nat.lt_one_iff.mp hlen)⟩⟩
        · cases hs
          exact hinv
      · cases hs
    · cases hs
  | idle =>
    simp only [step] at hs
    split at hs
    · cases hs
      exact hinv
    · cases hs

theorem inv_reachable (c : Flags) (dirs : List (Str × Node)) (s : State)
    (h : Reachable c dirs s) : Inv c s := by
  induction h with
  | init => exact inv_init c dirs
  | step a _ hs ih => exact inv_step c _ _ a ih hs

theorem reachable_run (c : Flags) (dirs : List (Str × Node)) (as : List Actor) :
    ∀ s, Reachable c dirs s → Reachable c dirs (run c s as) := by
  induction as with
  | nil => intro s h; exact h
  | cons a as ih =>
    intro s h
    simp only [run]
    cases hs : step c s a with
    | none => exact ih s h
    | some s1 => exact ih s1 (Reachable.step a h hs)

theorem scrape_shape (c : Flags) (path : Str) (n : Node) :
    (scrape c path n).head? = some .acquire ∧
    ((scrape c path n).filter Instr.isAcquire).length = 1 ∧
    ((scrape c path n).filter Instr.isRelease).length = 1 ∧
    (scrape c path n).getLast? = some .done ∧
    ((scrape c path n).filter Instr.isDone).length = 1 := by
  have h : ∀ rs : List Str,
      ((rs.map Instr.push).filter Instr.isAcquire) = [] ∧
      ((rs.map Instr.push).filter Instr.isRelease) = [] ∧
      ((rs.map Instr.push).filter Instr.isDone) = [] := by
    intro rs
    induction rs with
    | nil => simp
    | cons r rs ih => simp [Instr.isAcquire, Instr.isRelease, Instr.isDone, ih]
  obtain ⟨h1, h2, h3⟩ := h (scrapeRecords c path n)
  refine ⟨rfl, ?_, ?_, ?_, ?_⟩
  · simp [scrape, List.filter_cons, List.filter_append, h1, Instr.isAcquire]
  · simp [scrape, List.filter_cons, List.filter_append, h2, Instr.isRelease]
  · simp [scrape, List.getLast?_cons, List.getLast?_append]
  · simp [scrape, List.filter_cons, List.filter_append, h3, Instr.isDone]

theorem holders_le (c : Flags) (s : State) (h : Inv c s) : holders s ≤ c.maxFiles := by
  have := h.gate
  omega

theorem wg_zero_iff (c : Flags) (s : State) (hinv : Inv c s) (hp : s.prelude = []) :
    s.wg = 0 ↔ ∀ t ∈ s.tasks, t = [] := by
  constructor
  · exact tasks_nil_of_counter c s hinv hp
  · intro h
    have h0 : (s.tasks.map registered).sum = 0 :=
      sum_eq_zero fun t ht => by rw [h t ht]; rfl
    have := hinv.counter
    rw [h0, hp] at this
    simpa [pendingGo] using this

theorem step_none_of_exited (c : Flags) (s : State) (hinv : Inv c s) (hx : s.exited = true)
    (a : Actor) : step c s a = none := by
  obtain ⟨hw, hch⟩ := hinv.left hx
  have hp := hinv.started (by rw [hw]; simp)
  have ht := hinv.signalled (Or.inr (Or.inr hw))
  have hspin : s.spinning = false := by simp [State.spinning, hx]
  have hget : ∀ i, s.tasks.getD i [] = [] := by
    intro i
    cases h : s.tasks.getD i [] with
    | nil => rfl
    | cons op rest => exact absurd (ht _ (getD_mem h)) (by simp)
  cases a with
  | main => simp [step, hp, hw]
  | task i => simp only [step, hget i]
  | waiter => simp [step, hw]
  | recvMatch => simp [step, hspin]
  | recvSync i => simp [step, hspin]
  | recvDone => simp [step, hspin]
  | idle => simp [step, hspin]

theorem holdsToken_drop_tail (rs : List Str) :
    ∀ j, holdsToken ((rs.map Instr.push ++ [Instr.release, Instr.done]).drop j)
      = decide (j ≤ rs.length) := by
  induction rs with
  | nil =>
    intro j
    match j with
    | 0 => rfl
    | 1 => rfl
    | j + 2 => simp [holdsToken]
  | cons r rs ih =>
    intro j
    match j with
    | 0 =>
      have := holdsToken_scrapeTail (scrapeTail_pushes (r :: rs))
      simpa using this
    | j + 1 => simpa using ih j

theorem holdsToken_scrape_drop (c : Flags) (path : Str) (n : Node) (j : Nat) :
    holdsToken ((scrape c path n).drop j)
      = (decide (1 ≤ j) &&
          decide (j ≤ (scrapeRecords c path n).length + 1 + (if opens n then 0 else 1))) := by
  cases ho : opens n with
  | true =>
    match j with
    | 0 => simp [scrape, holdsToken]
    | j + 1 =>
      simp only [scrape, ho, if_true, List.nil_append, List.drop_succ_cons,
        holdsToken_drop_tail]
      simp
  | false =>
    match j with
    | 0 => simp [scrape, holdsToken]
    | 1 =>
      have := holdsToken_drop_tail (scrapeRecords c path n) 0
      simp only [List.drop_zero] at this
      simp [scrape, ho, holdsToken, this]
    | j + 2 =>
      simp only [scrape, ho, Bool.false_eq_true, if_false, List.singleton_append,
        List.drop_succ_cons, holdsToken_drop_tail]
      simp

theorem scrape_length (c : Flags) (path : Str) (n : Node) :
    (scrape c path n).length
      = (scrapeRecords c path n).length + 3 + (if opens n then 0 else 1) := by
  cases ho : opens n <;> simp [scrape, ho] <;> omega

/-- Claim C6.  In every state the program reaches, the tokens in `fileAllowed`
and the `scrape` goroutines that hold one add up to `maxFiles`, so at most
`maxFiles` of them hold an open file.  Every `scrape` takes a token as its
first operation and once, and returns one once, whatever the file is (missing,
unreadable, skipped at the content type check, or read to its end); it counts
as a holder from its first operation done until its release done.  On a path
that never opens (`opens n` false) it has one more operation, the call of
`os.Open` it stays in, and it is a holder for good. -/
theorem gate_invariant (c : Flags) (dirs : List (Str × Node)) (s : State)
    (h : Reachable c dirs s) :
    s.fileAllowed + holders s = c.maxFiles ∧ holders s ≤ c.maxFiles ∧
    ∀ (path : Str) (n : Node),
      (scrape c path n).head? = some .acquire ∧
      ((scrape c path n).filter Instr.isAcquire).length = 1 ∧
      ((scrape c path n).filter Instr.isRelease).length = 1 ∧
      (scrape c path n).length
        = (scrapeRecords c path n).length + 3 + (if opens n then 0 else 1) ∧
      (∀ j, holdsToken ((scrape c path n).drop j)
        = (decide (1 ≤ j) &&
            decide (j ≤ (scrapeRecords c path n).length + 1 + (if opens n then 0 else 1)))) ∧
      scrape c path .fifo = [.acquire, .hang, .release, .done] :=
  ⟨(inv_reachable c dirs s h).gate, holders_le c s (inv_reachable c dirs s h),
    fun path n => ⟨(scrape_shape c path n).1, (scrape_shape c path n).2.1,
      (scrape_shape c path n).2.2.1, scrape_length c path n,
      holdsToken_scrape_drop c path n, rfl⟩⟩

set_option maxRecDepth 100000 in
/-- Claim C6 in a state of scenario 1 with one token, where the `scrape` of
`a.txt` holds it and the one of `b.txt` waits. -/
theorem gate_invariant_witness :
    (run tightFlags (initState tightFlags [(ascii ".", scenarioTree)])
      [.main, .main, .main, .task 0, .task 0, .task 0, .task 0, .task 1, .task 2]).fileAllowed
      = 0 ∧
    holders (run tightFlags (initState tightFlags [(ascii ".", scenarioTree)])
      [.main, .main, .main, .task 0, .task 0, .task 0, .task 0, .task 1, .task 2]) = 1 ∧
    (run tightFlags (initState tightFlags [(ascii ".", scenarioTree)])
      [.main, .main, .main, .task 0, .task 0, .task 0, .task 0, .task 1, .task 2]).fileAllowed
      + holders (run tightFlags (initState tightFlags [(ascii ".", scenarioTree)])
      [.main, .main, .main, .task 0, .task 0, .task 0, .task 0, .task 1, .task 2])
      = tightFlags.maxFiles :=
  ⟨by decide, by decide,
    (gate_invariant tightFlags [(ascii ".", scenarioTree)] _
      (reachable_run tightFlags _ _ _ Reachable.init)).1⟩

/-- Claim C7, amended.  In every state the program reaches the counter is the
number of goroutines that have not returned plus the number of tasks
registered and not yet started; every `delve` registers a task right before
it starts it and calls `wg.Done()` once, as its last operation, and so does
every `scrape`.  Once `main` has registered and started every root, the
counter is zero exactly when every goroutine has returned. -/
theorem counter_invariant (c : Flags) (dirs : List (Str × Node)) (s : State)
    (h : Reachable c dirs s) :
    s.wg = ((s.tasks.map registered).sum + pendingGo s.prelude : Nat) ∧
    (s.prelude = [] → (s.wg = 0 ↔ ∀ t ∈ s.tasks, t = [])) ∧
    (∀ (path : Str) (n : Node), DelveTail (delve c path n)) ∧
    (∀ (path : Str) (n : Node),
      (scrape c path n).getLast? = some .done ∧
      ((scrape c path n).filter Instr.isDone).length = 1) :=
  ⟨(inv_reachable c dirs s h).counter, wg_zero_iff c s (inv_reachable c dirs s h),
    fun path n => delve_tail c path n,
    fun path n => ⟨(scrape_shape c path n).2.2.2.1, (scrape_shape c path n).2.2.2.2⟩⟩

set_option maxRecDepth 100000 in
/-- Claim C7 in the state of scenario 1 where the two `scrape` goroutines are
registered and started and `delve` has returned: the counter is two. -/
theorem counter_invariant_witness :
    (run tightFlags (initState tightFlags [(ascii ".", scenarioTree)])
      [.main, .main, .main, .task 0, .task 0, .task 0, .task 0, .task 0]).wg = 2 ∧
    (run tightFlags (initState tightFlags [(ascii ".", scenarioTree)])
      [.main, .main, .main, .task 0, .task 0, .task 0, .task 0, .task 0]).wg
      = ((((run tightFlags (initState tightFlags [(ascii ".", scenarioTree)])
          [.main, .main, .main, .task 0, .task 0, .task 0, .task 0, .task 0]).tasks.map
            registered).sum
        + pendingGo (run tightFlags (initState tightFlags [(ascii ".", scenarioTree)])
          [.main, .main, .main, .task 0, .task 0, .task 0, .task 0, .task 0]).prelude : Nat)
        : Int) :=
  ⟨by decide,
    (counter_invariant tightFlags [(ascii ".", scenarioTree)] _
      (reachable_run tightFlags _ _ _ Reachable.init)).1⟩

set_option maxRecDepth 100000 in
/-- Claim C7 as stated fails with two roots: after `main` has registered the
first root the counter is one; once the `delve` of that root has returned the
counter is zero again, while the second root is neither registered nor
started. -/
theorem counter_zero_before_second_root :
    Reachable (defaultFlags (ascii "o") reO) twoRoots
      (run (defaultFlags (ascii "o") reO) (initState (defaultFlags (ascii "o") reO) twoRoots)
        [.main, .main, .task 0]) ∧
    (run (defaultFlags (ascii "o") reO) (initState (defaultFlags (ascii "o") reO) twoRoots)
      [.main]).wg = 1 ∧
    (run (defaultFlags (ascii "o") reO) (initState (defaultFlags (ascii "o") reO) twoRoots)
      [.main, .main, .task 0]).wg = 0 ∧
    (run (defaultFlags (ascii "o") reO) (initState (defaultFlags (ascii "o") reO) twoRoots)
      [.main, .main, .task 0]).prelude = [.add, .goDelve (ascii "b") (.dir true .nil)] :=
  ⟨reachable_run _ _ _ _ Reachable.init, by decide, by decide, by rfl⟩

/-- Claim C8.  What has been written and what is buffered in `match` is, in
order, all that was ever sent.  `done` is closed only when the counter is zero
and every goroutine has returned.  The collector loop is left only with `done`
closed and `match` empty; then every value ever sent has been written, and
nothing moves any more, so nothing is sent later. -/
theorem collector_drops_no_match (c : Flags) (dirs : List (Str × Node)) (s : State)
    (h : Reachable c dirs s) :
    s.out ++ s.matchCh = s.pushed ∧
    (s.waiter = .closed → s.wg = 0 ∧ ∀ t ∈ s.tasks, t = []) ∧
    (s.exited = true →
      s.waiter = .closed ∧ s.matchCh = [] ∧ s.out = s.pushed ∧ ∀ a, step c s a = none) := by
  have hinv := inv_reachable c dirs s h
  refine ⟨hinv.history, ?_, ?_⟩
  · intro hw
    have ht := hinv.signalled (Or.inr (Or.inr hw))
    have hp := hinv.started (by rw [hw]; simp)
    exact ⟨(wg_zero_iff c s hinv hp).mpr ht, ht⟩
  · intro hx
    obtain ⟨hw, hch⟩ := hinv.left hx
    refine ⟨hw, hch, ?_, step_none_of_exited c s hinv hx⟩
    have := hinv.history
    rw [hch, List.append_nil] at this
    exact this

theorem progCost_append (c : Flags) (a b : List Instr) :
    progCost c (a ++ b) = progCost c a + progCost c b := by
  simp [progCost]

theorem progCost_cons (c : Flags) (op : Instr) (t : List Instr) :
    progCost c (op :: t) = instrCost c op + progCost c t := by
  simp [progCost]

theorem progCost_scrape (c : Flags) (path : Str) (n : Node) :
    progCost c (scrape c path n) = scrapeCost c path n := by
  have h : ∀ rs : List Str, progCost c (rs.map Instr.push) = 2 * rs.length := by
    intro rs
    induction rs with
    | nil => rfl
    | cons r rs ih =>
      simp only [List.map_cons, progCost_cons, ih, instrCost, List.length_cons]
      omega
  cases ho : opens n
  · simp only [scrape, ho, Bool.false_eq_true, if_false, progCost_cons, progCost_append, h,
      scrapeCost, instrCost]
    simp [progCost, instrCost]
    omega
  · simp only [scrape, ho, if_true, progCost_cons, progCost_append, h, scrapeCost, instrCost]
    simp [progCost, instrCost]
    omega

theorem progCost_delveEntries (c : Flags) (path : Str) :
    ∀ es : Entries, progCost c (delveEntries c path es) = entriesCost c path es
  | .nil => by simp [delveEntries, entriesCost, progCost]
  | .cons name d node rest => by
    have ih := progCost_delveEntries c path rest
    simp only [delveEntries, entriesCost, progCost_append, ih]
    congr 1
    cases d
    · simp only [Bool.false_eq_true, if_false]
      split
      · split <;> simp [progCost, instrCost]
      · simp [progCost, instrCost]; omega
    · simp [progCost, instrCost]
      omega
theorem progCost_delve (c : Flags) (path : Str) (n : Node) :
    progCost c (delve c path n) = delveCost c path n := by
  cases n with
  | noent =>
    simp only [delve, delveCost, isDir, opens]
    split
    · simp [progCost, instrCost]
    · simp [progCost, instrCost, scrapeCost, opens]; omega
  | file content =>
    simp only [delve, delveCost, isDir, opens]
    split
    · simp [progCost, instrCost]
    · simp [progCost, instrCost, scrapeCost, opens]; omega
  | dir ok es =>
    simp only [delve, delveCost, isDir, opens]
    split
    · simp [progCost, instrCost]
    · cases ok
      · simp [progCost, instrCost]
      · simp [progCost_append, progCost_delveEntries]
        simp [progCost, instrCost]
  | fifo =>
    simp only [delve, delveCost, opens]
    split
    · simp [progCost, instrCost]
    · simp [progCost, instrCost]

theorem instrCost_eq (c : Flags) (op : Instr) :
    instrCost c op = 1 + ((spawned c op).map (progCost c)).sum + op.sent.length := by
  cases op <;> simp [instrCost, spawned, Instr.sent, progCost_delve, progCost_scrape]

theorem measure_exec_task (c : Flags) (s s1 : State) (i : Nat) (op : Instr)
    (rest : List Instr) (hget : s.tasks.getD i [] = op :: rest)
    (hex : exec c s op = some s1) :
    measure c { s1 with tasks := s1.tasks.set i rest } < measure c s := by
  obtain ⟨hwg, htasks, htok, hch, hpushed, hout, hprel, hwait, hexit, hguard, _⟩ :=
    exec_spec c s s1 op hex
  have h1 := sum_map_update (progCost c) s.tasks (spawned c op) i op rest hget
  have h2 := instrCost_eq c op
  rw [progCost_cons] at h1
  simp only [measure, htasks, hch, hprel, hwait, hexit, List.length_append]
  omega

theorem measure_exec_main (c : Flags) (s s1 : State) (op : Instr) (rest : List Instr)
    (hp : s.prelude = op :: rest) (hex : exec c s op = some s1) :
    measure c { s1 with prelude := rest } < measure c s := by
  obtain ⟨hwg, htasks, htok, hch, hpushed, hout, hprel, hwait, hexit, hguard, _⟩ :=
    exec_spec c s s1 op hex
  have h2 := instrCost_eq c op
  simp only [measure, htasks, hch, hp, hwait, hexit, List.length_append, List.map_append,
    List.sum_append, progCost_cons]
  omega

theorem measure_step (c : Flags) (s s1 : State) (a : Actor) (hs : step c s a = some s1) :
    ((a = .idle ∨ (a = .recvDone ∧ s.waiter = .closed ∧ ¬ s.matchCh.length < 1)) ∧ s1 = s) ∨
      measure c s1 < measure c s := by
  cases a with
  | main =>
    simp only [step] at hs
    split at hs
    · rename_i op rest hp
      cases hex : exec c s op with
      | none => simp [hex] at hs
      | some s2 =>
        simp only [hex, Option.map_some', Option.some.injEq] at hs
        subst hs
        exact Or.inr (measure_exec_main c s s2 op rest hp hex)
    · split at hs
      · rename_i hw
        cases hs
        right
        simp [measure, hw, Waiter.cost]
      · cases hs
  | task i =>
    simp only [step] at hs
    split at hs
    · cases hs
    · rename_i op rest hget
      cases hex : exec c s op with
      | none => simp [hex] at hs
      | some s2 =>
        simp only [hex, Option.map_some', Option.some.injEq] at hs
        subst hs
        exact Or.inr (measure_exec_task c s s2 i op rest hget hex)
  | waiter =>
    simp only [step] at hs
    split at hs
    · rename_i hw
      split at hs
      · cases hs
        right
        simp [measure, hw, Waiter.cost]
      · cases hs
    · rename_i hw
      cases hs
      right
      simp [measure, hw, Waiter.cost]
    · cases hs
  | recvMatch =>
    simp only [step] at hs
    split at hs
    · split at hs
      · rename_i r rest hch
        cases hs
        right
        simp [measure, hch]
      · cases hs
    · cases hs
  | recvSync i =>
    simp only [step] at hs
    split at hs
    · split at hs
      · rename_i r rest hget
        cases hs
        right
        have h1 := sum_map_update (progCost c) s.tasks [] i (.push r) rest hget
        simp only [List.append_nil, List.map_nil, List.sum_nil, Nat.add_zero, progCost_cons,
          instrCost] at h1
        simp only [measure]
        omega
      · cases hs
    · cases hs
  | recvDone =>
    simp only [step] at hs
    split at hs
    · rename_i hspin
      obtain ⟨hp, hw, hx⟩ := (spinning_iff s).mp hspin
      split at hs
      · rename_i hws
        cases hs
        right
        simp [measure, hws, Waiter.cost]
      · split at hs
        · cases hs
          right
          simp [measure, hx]
        · rename_i hwc hlen
          cases hs
          exact Or.inl ⟨Or.inr ⟨rfl, hwc, hlen⟩, rfl⟩
      · cases hs
    · cases hs
  | idle =>
    simp only [step] at hs
    split at hs
    · cases hs
      exact Or.inl ⟨Or.inl rfl, rfl⟩
    · cases hs

theorem exists_getD_of_mem {l : List (List Instr)} {t : List Instr} (h : t ∈ l) :
    ∃ i, l.getD i [] = t := by
  induction l with
  | nil => simp at h
  | cons x l ih =>
    rcases List.mem_cons.mp h with h | h
    · exact ⟨0, by simp [h]⟩
    · obtain ⟨i, hi⟩ := ih h
      exact ⟨i + 1, by simpa using hi⟩

theorem exists_ne_zero_of_sum {l : List (List Instr)} {f : List Instr → Nat}
    (h : (l.map f).sum ≠ 0) : ∃ t ∈ l, f t ≠ 0 := by
  by_contra hn
  push_neg at hn
  exact h (sum_eq_zero hn)

theorem opens_of_regular {n : Node} (h : n.regular = true) : opens n = true := by
  cases n <;> simp_all [Node.regular, opens]

theorem delveEntries_regular (c : Flags) (path : Str) :
    ∀ es : Entries, es.regular = true → ∀ op ∈ delveEntries c path es, Instr.regular op = true
  | .nil => by simp [delveEntries]
  | .cons name d node rest => by
    intro h op hop
    simp only [Entries.regular, Bool.and_eq_true] at h
    have ih := delveEntries_regular c path rest h.2
    simp only [delveEntries, List.mem_append] at hop
    rcases hop with hop | hop
    · split at hop
      · simp only [List.mem_cons, List.mem_singleton, List.not_mem_nil, or_false] at hop
        rcases hop with rfl | rfl
        · rfl
        · exact h.1
      · split at hop
        · split at hop
          · simp only [List.mem_singleton] at hop
            subst hop
            rfl
          · simp at hop
        · simp only [List.mem_cons, List.mem_singleton, List.not_mem_nil, or_false] at hop
          rcases hop with rfl | rfl
          · rfl
          · exact h.1
    · exact ih op hop

theorem delve_regular (c : Flags) (path : Str) (n : Node) (h : n.regular = true) :
    ∀ op ∈ delve c path n, Instr.regular op = true := by
  intro op hop
  cases n with
  | fifo => simp [Node.regular] at h
  | noent =>
    simp only [delve, opens, isDir, Bool.not_true, Bool.not_false, Bool.false_eq_true,
      if_false, if_true] at hop
    split at hop
    · simp only [List.mem_singleton] at hop
      subst hop; rfl
    · simp only [List.mem_cons, List.mem_singleton, List.not_mem_nil, or_false] at hop
      rcases hop with rfl | rfl | rfl <;> rfl
  | file content =>
    simp only [delve, opens, isDir, Bool.not_true, Bool.not_false, Bool.false_eq_true,
      if_false, if_true] at hop
    split at hop
    · simp only [List.mem_singleton] at hop
      subst hop; rfl
    · simp only [List.mem_cons, List.mem_singleton, List.not_mem_nil, or_false] at hop
      rcases hop with rfl | rfl | rfl <;> rfl
  | dir ok es =>
    simp only [delve, opens, isDir, Bool.not_true, Bool.not_false, Bool.false_eq_true,
      if_false, if_true] at hop
    split at hop
    · simp only [List.mem_singleton] at hop
      subst hop; rfl
    · cases ok with
      | false =>
        simp only [List.mem_singleton] at hop
        subst hop; rfl
      | true =>
        simp only [List.mem_append, List.mem_singleton] at hop
        rcases hop with hop | rfl
        · exact delveEntries_regular c path es (by simpa [Node.regular] using h) op hop
        · rfl

theorem scrape_regular (c : Flags) (path : Str) (n : Node) (h : n.regular = true) :
    ∀ op ∈ scrape c path n, Instr.regular op = true := by
  intro op hop
  have ho := opens_of_regular h
  simp only [scrape, ho, if_true, List.nil_append, List.mem_cons, List.mem_append,
    List.mem_map, List.mem_singleton, List.not_mem_nil, or_false] at hop
  rcases hop with rfl | ⟨r, _, rfl⟩ | rfl | rfl <;> rfl

theorem spawned_regular (c : Flags) (op : Instr) (h : Instr.regular op = true) :
    ∀ t ∈ spawned c op, ∀ o ∈ t, Instr.regular o = true := by
  intro t ht
  cases op <;> simp only [spawned, List.mem_singleton, List.not_mem_nil] at ht
  · subst ht
    exact delve_regular c _ _ h
  · subst ht
    exact scrape_regular c _ _ h

theorem spawnRoots_regular (dirs : List (Str × Node)) (h : ∀ d ∈ dirs, d.2.regular = true) :
    ∀ op ∈ spawnRoots dirs, Instr.regular op = true := by
  induction dirs with
  | nil => simp [spawnRoots]
  | cons d ds ih =>
    intro op hop
    simp only [spawnRoots, List.mem_cons] at hop
    rcases hop with rfl | rfl | hop
    · rfl
    · exact h d (by simp)
    · exact ih (fun x hx => h x (by simp [hx])) op hop

theorem regular_step (c : Flags) (s s1 : State) (a : Actor) (hr : RegularState s)
    (hs : step c s a = some s1) : RegularState s1 := by
  obtain ⟨ht, hp⟩ := hr
  cases a with
  | main =>
    simp only [step] at hs
    split at hs
    · rename_i op rest hpre
      cases hex : exec c s op with
      | none => simp [hex] at hs
      | some s2 =>
        simp only [hex, Option.map_some', Option.some.injEq] at hs
        subst hs
        obtain ⟨_, htasks, _⟩ := exec_spec c s s2 op hex
        have hop : Instr.regular op = true := hp op (by rw [hpre]; simp)
        refine ⟨?_, fun o ho => hp o (by rw [hpre]; exact List.mem_cons_of_mem _ ho)⟩
        intro t htm
        simp only [htasks] at htm
        rcases List.mem_append.mp htm with h | h
        · exact ht t h
        · exact spawned_regular c op hop t h
    · split at hs
      · cases hs
        exact ⟨ht, hp⟩
      · cases hs
  | task i =>
    simp only [step] at hs
    split at hs
    · cases hs
    · rename_i op rest hget
      cases hex : exec c s op with
      | none => simp [hex] at hs
      | some s2 =>
        simp only [hex, Option.map_some', Option.some.injEq] at hs
        subst hs
        obtain ⟨_, htasks, _, _, _, _, hprel, _⟩ := exec_spec c s s2 op hex
        have hall := ht _ (getD_mem hget)
        refine ⟨?_, by simpa [hprel] using hp⟩
        intro t htm
        simp only [htasks] at htm
        rcases mem_update htm with h | h | h
        · exact ht t h
        · subst h
          exact fun o ho => hall o (List.mem_cons_of_mem _ ho)
        · exact spawned_regular c op (hall op (by simp)) t h
  | waiter =>
    simp only [step] at hs
    split at hs
    · split at hs
      · cases hs; exact ⟨ht, hp⟩
      · cases hs
    · cases hs; exact ⟨ht, hp⟩
    · cases hs
  | recvMatch =>
    simp only [step] at hs
    split at hs
    · split at hs
      · cases hs; exact ⟨ht, hp⟩
      · cases hs
    · cases hs
  | recvSync i =>
    simp only [step] at hs
    split at hs
    · split at hs
      · rename_i r rest hget
        cases hs
        have hall := ht _ (getD_mem hget)
        refine ⟨?_, hp⟩
        intro t htm
        rcases List.mem_or_eq_of_mem_set htm with h | h
        · exact ht t h
        · subst h
          exact fun o ho => hall o (List.mem_cons_of_mem _ ho)
      · cases hs
    · cases hs
  | recvDone =>
    simp only [step] at hs
    split at hs
    · split at hs
      · cases hs; exact ⟨ht, hp⟩
      · split at hs
        · cases hs; exact ⟨ht, hp⟩
        · cases hs; exact ⟨ht, hp⟩
      · cases hs
    · cases hs
  | idle =>
    simp only [step] at hs
    split at hs
    · cases hs; exact ⟨ht, hp⟩
    · cases hs

theorem regular_reachable (c : Flags) (dirs : List (Str × Node))
    (hd : ∀ d ∈ dirs, d.2.regular = true) (s : State) (h : Reachable c dirs s) :
    RegularState s := by
  induction h with
  | init => exact ⟨by simp [initState], spawnRoots_regular dirs hd⟩
  | step a _ hs ih => exact regular_step c _ _ a ih hs

theorem task_enabled (c : Flags) (s : State) (hinv : Inv c s) (hspin : s.spinning = true)
    (hch : s.matchCh = []) (i : Nat) (op : Instr) (rest : List Instr)
    (hget : s.tasks.getD i [] = op :: rest) (hreg : Instr.regular op = true)
    (hop : op.isAcquire = false ∨ 0 < s.fileAllowed) :
    ∃ a s1, step c s a = some s1 ∧ a ≠ .idle ∧ a ≠ .recvDone := by
  have hmem := getD_mem hget
  have htask : ∀ s2, exec c s op = some s2 →
      ∃ a s1, step c s a = some s1 ∧ a ≠ .idle ∧ a ≠ .recvDone := by
    intro s2 h2
    exact ⟨.task i, _, by simp only [step, hget, h2, Option.map_some']; rfl, by simp, by simp⟩
  cases op with
  | add => exact htask _ rfl
  | goDelve p n => exact htask _ rfl
  | goScrape p n => exact htask _ rfl
  | done => exact htask _ rfl
  | hang => simp [Instr.regular] at hreg
  | push r =>
    by_cases hm : c.mSize = 0
    · exact ⟨.recvSync i, _, by simp only [step, hspin, hm, hget]; rfl, by simp, by simp⟩
    · exact htask _ (by simp only [exec, hch, List.length_nil]; rw [if_pos (by omega)])
  | acquire =>
    rcases hop with h | h
    · simp [Instr.isAcquire] at h
    · exact htask _ (by simp only [exec]; rw [if_pos h])
  | release =>
    have h1 : holdsN (Instr.release :: rest) ≤ (s.tasks.map holdsN).sum :=
      List.single_le_sum (by simp) _ (List.mem_map_of_mem _ hmem)
    have h2 := hinv.gate
    simp only [holders] at h2
    simp only [holdsN, holdsToken, if_true] at h1
    exact htask _ (by simp only [exec]; rw [if_pos (by omega)])

theorem enabled_of_live (c : Flags) (s : State) (hinv : Inv c s) (hr : RegularState s)
    (hmax : 1 ≤ c.maxFiles)
    (hspin : s.spinning = true) (hch : s.matchCh = []) (t : List Instr) (ht : t ∈ s.tasks)
    (hne : t ≠ []) : ∃ a s1, step c s a = some s1 ∧ a ≠ .idle ∧ a ≠ .recvDone := by
  obtain ⟨i, hi⟩ := exists_getD_of_mem ht
  cases t with
  | nil => exact absurd rfl hne
  | cons op rest =>
    by_cases hop : op.isAcquire = false ∨ 0 < s.fileAllowed
    · exact task_enabled c s hinv hspin hch i op rest hi (hr.1 _ ht op (by simp)) hop
    · have h0 : s.fileAllowed = 0 := by
        have := not_or.mp hop
        omega
      have hg := hinv.gate
      have hsum : (s.tasks.map holdsN).sum ≠ 0 := by
        simp only [holders] at hg
        omega
      obtain ⟨t1, ht1, hh⟩ := exists_ne_zero_of_sum hsum
      obtain ⟨j, hj⟩ := exists_getD_of_mem ht1
      cases t1 with
      | nil => simp [holdsN, holdsToken] at hh
      | cons op1 rest1 =>
        refine task_enabled c s hinv hspin hch j op1 rest1 hj (hr.1 _ ht1 op1 (by simp))
          (Or.inl ?_)
        cases op1 <;> simp_all [holdsN, holdsToken, Instr.isAcquire]

theorem exists_live_of_counter (c : Flags) (s : State) (hinv : Inv c s) (hp : s.prelude = [])
    (hwg : s.wg ≠ 0) : ∃ t ∈ s.tasks, t ≠ [] := by
  by_contra hn
  push_neg at hn
  exact hwg ((wg_zero_iff c s hinv hp).mpr hn)

theorem enabled_of_not_exited (c : Flags) (s : State) (hinv : Inv c s) (hr : RegularState s)
    (hmax : 1 ≤ c.maxFiles) (hx : s.exited = false) :
    ∃ a s1, step c s a = some s1 ∧ a ≠ .idle ∧
      (a = .recvDone → ¬ (s.waiter = .closed ∧ ¬ s.matchCh.length < 1)) := by
  cases hp : s.prelude with
  | cons op rest =>
    obtain ⟨_, _, htok, hsent, hnh⟩ := preludeOk_cons c op rest (hp ▸ hinv.preludeOk)
    have hex : ∃ s2, exec c s op = some s2 := by
      cases op <;> simp_all [exec, Instr.dTok, Instr.sent]
    obtain ⟨s2, h2⟩ := hex
    exact ⟨.main, _, by simp only [step, hp, h2, Option.map_some']; rfl, by simp, by simp⟩
  | nil =>
    by_cases hw : s.waiter = .unborn
    · exact ⟨.main, _, by simp only [step, hp, hw, if_true]; rfl, by simp, by simp⟩
    · have hspin : s.spinning = true := (spinning_iff s).mpr ⟨hp, hw, hx⟩
      cases hch : s.matchCh with
      | cons r rest =>
        exact ⟨.recvMatch, _, by simp only [step, hspin, hch, if_true]; rfl, by simp, by simp⟩
      | nil =>
        cases hwt : s.waiter with
        | unborn => exact absurd hwt hw
        | waiting =>
          by_cases hwg : s.wg = 0
          · exact ⟨.waiter, _, by simp only [step, hwt, hwg, if_true]; rfl, by simp, by simp⟩
          · obtain ⟨t, ht, hne⟩ := exists_live_of_counter c s hinv hp hwg
            obtain ⟨a, s1, h1, h2, h3⟩ := enabled_of_live c s hinv hr hmax hspin hch t ht hne
            exact ⟨a, s1, h1, h2, fun h => absurd h h3⟩
        | sending =>
          exact ⟨.recvDone, _, by simp only [step, hspin, hwt, if_true]; rfl, by simp,
            by simp [hwt]⟩
        | closing => exact ⟨.waiter, _, by simp only [step, hwt]; rfl, by simp, by simp⟩
        | closed =>
          exact ⟨.recvDone, _, by
            simp only [step, hspin, hwt, hch, List.length_nil, if_true]
            rfl, by simp, by simp [hch]⟩

theorem progress (c : Flags) (s : State) (hinv : Inv c s) (hr : RegularState s)
    (hmax : 1 ≤ c.maxFiles)
    (hx : s.exited = false) : ∃ a s1, step c s a = some s1 ∧ measure c s1 < measure c s := by
  obtain ⟨a, s1, h1, h2, h3⟩ := enabled_of_not_exited c s hinv hr hmax hx
  refine ⟨a, s1, h1, ?_⟩
  rcases measure_step c s s1 a h1 with ⟨h | ⟨h, hw, hl⟩, _⟩ | h
  · exact absurd h h2
  · exact absurd ⟨hw, hl⟩ (h3 h)
  · exact h

theorem measure_along (c : Flags) (r : ℕ → State)
    (hr : ∀ n, ∃ a, step c (r n) a = some (r (n + 1))) :
    ∀ n, measure c (r n) ≤ measure c (r 0) ∧ (measure c (r n) = measure c (r 0) → r n = r 0) := by
  intro n
  induction n with
  | zero => exact ⟨le_refl _, fun _ => rfl⟩
  | succ n ih =>
    obtain ⟨a, ha⟩ := hr n
    rcases measure_step c _ _ a ha with ⟨_, h⟩ | h
    · rw [h]; exact ih
    · exact ⟨by omega, fun he => by omega⟩

theorem run_stabilises (c : Flags) :
    ∀ (k : Nat) (r : ℕ → State), measure c (r 0) ≤ k →
      (∀ n, ∃ a, step c (r n) a = some (r (n + 1))) → ∃ N, ∀ n, N ≤ n → r n = r N := by
  intro k
  induction k with
  | zero =>
    intro r hk hr
    refine ⟨0, fun n _ => ?_⟩
    have := measure_along c r hr n
    exact this.2 (by omega)
  | succ k ih =>
    intro r hk hr
    by_cases hall : ∀ n, r n = r 0
    · exact ⟨0, fun n _ => hall n⟩
    · push_neg at hall
      obtain ⟨m, hm⟩ := hall
      have hlt : measure c (r m) < measure c (r 0) := by
        have := measure_along c r hr m
        rcases Nat.lt_or_ge (measure c (r m)) (measure c (r 0)) with h | h
        · exact h
        · exact absurd (this.2 (by omega)) hm
      obtain ⟨N, hN⟩ := ih (fun n => r (m + n)) (by simp only [Nat.add_zero]; omega)
        (fun n => by simpa [Nat.add_assoc] using hr (m + n))
      refine ⟨m + N, fun n hn => ?_⟩
      have := hN (n - m) (by omega)
      simp only at this
      rwa [show m + (n - m) = n by omega] at this

theorem exists_run_to_exit (c : Flags) (hmax : 1 ≤ c.maxFiles) :
    ∀ (n : Nat) (s : State), Inv c s → RegularState s → measure c s ≤ n →
      ∃ as : List Actor, (run c s as).exited = true ∧ as.length ≤ n := by
  intro n
  induction n with
  | zero =>
    intro s _ _ hm
    refine ⟨[], ?_, le_refl _⟩
    cases hx : s.exited with
    | true => simpa [run] using hx
    | false => simp [measure, hx] at hm
  | succ n ih =>
    intro s hinv hr hm
    cases hx : s.exited with
    | true => exact ⟨[], by simpa [run] using hx, Nat.zero_le _⟩
    | false =>
      obtain ⟨a, s1, hs, hlt⟩ := progress c s hinv hr hmax hx
      obtain ⟨as, h1, h2⟩ := ih s1 (inv_step c s s1 a hinv hs) (regular_step c s s1 a hr hs)
        (by omega)
      exact ⟨a :: as, by simpa [run, hs] using h1, by simpa using h2⟩

theorem hangCount_cons (c : Flags) (op : Instr) (t : List Instr) :
    hangCount c (op :: t) = Instr.hangN c op + hangCount c t := by
  simp [hangCount]

theorem hangCount_append (c : Flags) (a b : List Instr) :
    hangCount c (a ++ b) = hangCount c a + hangCount c b := by
  simp [hangCount]

theorem hangCount_delveEntries (c : Flags) (path : Str) :
    ∀ es : Entries, entriesReachFifo c path es = true →
      1 ≤ hangCount c (delveEntries c path es)
  | .nil => by simp [entriesReachFifo]
  | .cons name d node rest => by
    intro h
    simp only [entriesReachFifo, Bool.or_eq_true] at h
    simp only [delveEntries, hangCount_append]
    rcases h with h | h
    · cases d with
      | true =>
        simp only [if_true] at h
        simp [hangCount, Instr.hangN, h]
      | false =>
        simp only [Bool.false_eq_true, if_false] at h
        cases hb : c.byName with
        | true => simp [hb] at h
        | false =>
          simp only [hb, Bool.false_eq_true, if_false, Bool.not_eq_true'] at h
          simp [hangCount, Instr.hangN, h]
    · have := hangCount_delveEntries c path rest h
      omega

theorem hangCount_delve (c : Flags) (path : Str) (n : Node) (h : reachesFifo c path n = true) :
    1 ≤ hangCount c (delve c path n) := by
  cases n with
  | noent => simp [reachesFifo] at h
  | file content => simp [reachesFifo] at h
  | fifo =>
    simp only [reachesFifo, Bool.not_eq_true'] at h
    simp only [delve, h, Bool.false_eq_true, if_false, opens, Bool.not_false, if_true]
    simp [hangCount, Instr.hangN]
  | dir ok es =>
    simp only [reachesFifo, Bool.and_eq_true, Bool.not_eq_true'] at h
    obtain ⟨⟨h1, h2⟩, h3⟩ := h
    have := hangCount_delveEntries c path es h3
    subst h2
    simp only [delve, h1, Bool.false_eq_true, if_false, opens, isDir, Bool.not_true,
      hangCount_append]
    omega

theorem hangCount_scrape (c : Flags) (path : Str) (n : Node) (h : opens n = false) :
    1 ≤ hangCount c (scrape c path n) := by
  simp only [scrape, h, Bool.false_eq_true, if_false, hangCount_cons, hangCount_append]
  simp [hangCount, Instr.hangN]

theorem hangN_le_spawned (c : Flags) (s s1 : State) (op : Instr)
    (h : exec c s op = some s1) :
    Instr.hangN c op ≤ ((spawned c op).map (hangCount c)).sum := by
  cases op with
  | hang => simp [exec] at h
  | goDelve p n =>
    simp only [Instr.hangN, spawned, List.map_cons, List.map_nil, List.sum_cons, List.sum_nil,
      Nat.add_zero]
    split
    · rename_i hr
      exact hangCount_delve c p n hr
    · exact Nat.zero_le _
  | goScrape p n =>
    simp only [Instr.hangN, spawned, List.map_cons, List.map_nil, List.sum_cons, List.sum_nil,
      Nat.add_zero]
    split
    · exact Nat.zero_le _
    · rename_i ho
      exact hangCount_scrape c p n (by simpa using ho)
  | add => simp [Instr.hangN]
  | push r => simp [Instr.hangN]
  | acquire => simp [Instr.hangN]
  | release => simp [Instr.hangN]
  | done => simp [Instr.hangN]

theorem hangMass_step (c : Flags) (s s1 : State) (a : Actor) (hs : step c s a = some s1) :
    hangMass c s ≤ hangMass c s1 := by
  cases a with
  | main =>
    simp only [step] at hs
    split at hs
    · rename_i op rest hp
      cases hex : exec c s op with
      | none => simp [hex] at hs
      | some s2 =>
        simp only [hex, Option.map_some', Option.some.injEq] at hs
        subst hs
        obtain ⟨_, htasks, _⟩ := exec_spec c s s2 op hex
        have h1 := hangN_le_spawned c s s2 op hex
        simp only [hangMass, htasks, hp, hangCount_cons, List.map_append, List.sum_append]
        omega
    · split at hs
      · cases hs; exact le_refl _
      · cases hs
  | task i =>
    simp only [step] at hs
    split at hs
    · cases hs
    · rename_i op rest hget
      cases hex : exec c s op with
      | none => simp [hex] at hs
      | some s2 =>
        simp only [hex, Option.map_some', Option.some.injEq] at hs
        subst hs
        obtain ⟨_, htasks, _, _, _, _, hprel, _⟩ := exec_spec c s s2 op hex
        have h1 := hangN_le_spawned c s s2 op hex
        have h2 := sum_map_update (hangCount c) s.tasks (spawned c op) i op rest hget
        rw [hangCount_cons] at h2
        simp only [hangMass, htasks, hprel]
        omega
  | waiter =>
    simp only [step] at hs
    split at hs
    · split at hs
      · cases hs; exact le_refl _
      · cases hs
    · cases hs; exact le_refl _
    · cases hs
  | recvMatch =>
    simp only [step] at hs
    split at hs
    · split at hs
      · cases hs; exact le_refl _
      · cases hs
    · cases hs
  | recvSync i =>
    simp only [step] at hs
    split at hs
    · split at hs
      · rename_i r rest hget
        cases hs
        have h2 := sum_map_update (hangCount c) s.tasks [] i (.push r) rest hget
        simp only [List.append_nil, List.map_nil, List.sum_nil, Nat.add_zero, hangCount_cons,
          Instr.hangN, Nat.zero_add] at h2
        simp only [hangMass]
        omega
      · cases hs
    · cases hs
  | recvDone =>
    simp only [step] at hs
    split at hs
    · split at hs
      · cases hs; exact le_refl _
      · split at hs
        · cases hs; exact le_refl _
        · cases hs; exact le_refl _
      · cases hs
    · cases hs
  | idle =>
    simp only [step] at hs
    split at hs
    · cases hs; exact le_refl _
    · cases hs

theorem hangCount_spawnRoots (c : Flags) (dirs : List (Str × Node))
    (h : ∃ d ∈ dirs, reachesFifo c d.1 d.2 = true) : 1 ≤ hangCount c (spawnRoots dirs) := by
  induction dirs with
  | nil => simp at h
  | cons d ds ih =>
    obtain ⟨x, hx, hr⟩ := h
    simp only [spawnRoots, hangCount_cons, Instr.hangN]
    rcases List.mem_cons.mp hx with rfl | hx
    · simp [hr]
    · have := ih ⟨x, hx, hr⟩
      omega

theorem never_exits (c : Flags) (dirs : List (Str × Node))
    (hd : ∃ d ∈ dirs, reachesFifo c d.1 d.2 = true) (s : State) (h : Reachable c dirs s) :
    s.exited = false := by
  have hm : 1 ≤ hangMass c s := by
    induction h with
    | init =>
      have := hangCount_spawnRoots c dirs hd
      simp only [hangMass, initState, List.map_nil, List.sum_nil, Nat.zero_add]
      exact this
    | step a _ hs ih => exact le_trans ih (hangMass_step c _ _ a hs)
  have hinv := inv_reachable c dirs s h
  cases hx : s.exited with
  | false => rfl
  | true =>
    obtain ⟨hw, _⟩ := hinv.left hx
    have hp := hinv.started (by rw [hw]; simp)
    have ht := hinv.signalled (Or.inr (Or.inr hw))
    have h0 : (s.tasks.map (hangCount c)).sum = 0 :=
      sum_eq_zero fun t htm => by rw [ht t htm]; rfl
    simp only [hangMass, h0, hp, hangCount, List.map_nil, List.sum_nil] at hm
    omega

/-- Claim C9, amended.  With at least one token and roots below which every
path opens (no named pipe without a writer or other path on which `os.Open`
never returns), in every state the program reaches: unless the collector loop
has been left, some goroutine can take a step that changes the state (no
deadlock, whatever the number of tokens and the capacity of `match`, one
included); every step either leaves the state as it is (the collector idling,
or polling the closed `done` while `match` still holds values) or decreases a
measure; there is a schedule, not longer than the measure, that ends with the
collector loop left; and every infinite run from the state changes the state
finitely often only, so it can avoid the exit only by never taking a step
that stays enabled. -/
theorem terminates_without_deadlock (c : Flags) (dirs : List (Str × Node))
    (hmax : 1 ≤ c.maxFiles) (hreg : ∀ d ∈ dirs, d.2.regular = true) (s : State)
    (h : Reachable c dirs s) :
    (s.exited = false → ∃ a s1, step c s a = some s1 ∧ measure c s1 < measure c s) ∧
    (∀ a s1, step c s a = some s1 → s1 = s ∨ measure c s1 < measure c s) ∧
    (∃ as : List Actor, (run c s as).exited = true ∧ as.length ≤ measure c s) ∧
    (∀ r : ℕ → State, r 0 = s → (∀ n, ∃ a, step c (r n) a = some (r (n + 1))) →
      ∃ N, ∀ n, N ≤ n → r n = r N) := by
  have hinv := inv_reachable c dirs s h
  have hr := regular_reachable c dirs hreg s h
  refine ⟨progress c s hinv hr hmax, ?_,
    exists_run_to_exit c hmax _ s hinv hr (le_refl _), ?_⟩
  · intro a s1 hs
    rcases measure_step c s s1 a hs with ⟨_, h⟩ | h
    · exact Or.inl h
    · exact Or.inr h
  · intro r _ hr
    exact run_stabilises c _ r (le_refl _) hr

/-- Claim C9, amended, at the start of scenario 1 with one token and a result
buffer of one: some schedule ends with the collector loop left. -/
theorem terminates_without_deadlock_witness :
    1 ≤ tightFlags.maxFiles ∧ scenarioTree.regular = true ∧
    ∃ as : List Actor,
      (run tightFlags (initState tightFlags [(ascii ".", scenarioTree)]) as).exited = true ∧
      as.length ≤ measure tightFlags (initState tightFlags [(ascii ".", scenarioTree)]) :=
  ⟨by decide, by decide,
    (terminates_without_deadlock tightFlags [(ascii ".", scenarioTree)] (by decide)
      (by decide) _ Reachable.init).2.2.1⟩

set_option maxRecDepth 100000 in
/-- Claim C9 as stated fails on a finite tree that holds a named pipe with no
writer.  Searched from `.` with the default flags (500 tokens), the `scrape`
of the pipe takes a token and stays in `os.Open`: a state is reached in which
the collector loop has not been left, the counter is one and no step changes
the state; and no run at all leaves the collector loop. -/
theorem fifo_blocks_forever :
    Reachable (defaultFlags (ascii "o") reO) [(ascii ".", fifoTree)] stuckFifo ∧
    stuckFifo.exited = false ∧ stuckFifo.wg = 1 ∧ holders stuckFifo = 1 ∧
    (∀ a s1, step (defaultFlags (ascii "o") reO) stuckFifo a = some s1 → s1 = stuckFifo) ∧
    (∀ s, Reachable (defaultFlags (ascii "o") reO) [(ascii ".", fifoTree)] s →
      s.exited = false) := by
  refine ⟨reachable_run _ _ _ _ Reachable.init, by decide, by decide, by decide, ?_,
    never_exits _ _ ⟨_, List.mem_singleton.mpr rfl, by decide⟩⟩
  intro a s1 hs
  cases a with
  | main =>
    have h : step (defaultFlags (ascii "o") reO) stuckFifo .main = none := by rfl
    rw [h] at hs; cases hs
  | waiter =>
    have h : step (defaultFlags (ascii "o") reO) stuckFifo .waiter = none := by rfl
    rw [h] at hs; cases hs
  | recvMatch =>
    have h : step (defaultFlags (ascii "o") reO) stuckFifo .recvMatch = none := by rfl
    rw [h] at hs; cases hs
  | recvDone =>
    have h : step (defaultFlags (ascii "o") reO) stuckFifo .recvDone = none := by rfl
    rw [h] at hs; cases hs
  | idle =>
    have h : step (defaultFlags (ascii "o") reO) stuckFifo .idle = some stuckFifo := by rfl
    rw [h] at hs
    exact (Option.some.inj hs).symm
  | recvSync i =>
    have h : step (defaultFlags (ascii "o") reO) stuckFifo (.recvSync i) = none := by rfl
    rw [h] at hs; cases hs
  | task i =>
    match i with
    | 0 =>
      have h : step (defaultFlags (ascii "o") reO) stuckFifo (.task 0) = none := by rfl
      rw [h] at hs; cases hs
    | 1 =>
      have h : step (defaultFlags (ascii "o") reO) stuckFifo (.task 1) = none := by rfl
      rw [h] at hs; cases hs
    | n + 2 =>
      have h : step (defaultFlags (ascii "o") reO) stuckFifo (.task (n + 2)) = none := by rfl
      rw [h] at hs; cases hs

set_option maxRecDepth 100000 in
/-- Claim C8 on a complete run of scenario 1 with one token and a result
buffer of one: the loop is left and the three records sent are written. -/
theorem collector_drops_no_match_witness :
    (run tightFlags (initState tightFlags [(ascii ".", scenarioTree)]) fullSchedule).exited
      = true ∧
    (run tightFlags (initState tightFlags [(ascii ".", scenarioTree)]) fullSchedule).pushed
      = [ascii "a.txt:1: hello", ascii "a.txt:2: world", ascii "b.txt:1: goodbye"] ∧
    (run tightFlags (initState tightFlags [(ascii ".", scenarioTree)]) fullSchedule).out
      = (run tightFlags (initState tightFlags [(ascii ".", scenarioTree)]) fullSchedule).pushed :=
  ⟨by decide, by decide,
    ((collector_drops_no_match tightFlags [(ascii ".", scenarioTree)] _
      (reachable_run tightFlags _ fullSchedule _ Reachable.init)).2.2 (by decide)).2.2.1⟩

/-! ## The output of the search -/

theorem progEmits_cons (c : Flags) (op : Instr) (t : List Instr) :
    progEmits c (op :: t) = instrEmits c op ++ progEmits c t := by
  simp [progEmits]

theorem progEmits_append (c : Flags) (a b : List Instr) :
    progEmits c (a ++ b) = progEmits c a ++ progEmits c b := by
  simp [progEmits]

theorem progEmits_scrape (c : Flags) (path : Str) (n : Node) :
    progEmits c (scrape c path n) = scrapeRecords c path n := by
  have h : ∀ rs : List Str, progEmits c (rs.map Instr.push) = rs := by
    intro rs
    induction rs with
    | nil => rfl
    | cons r rs ih => simp [progEmits_cons, instrEmits, ih]
  simp only [scrape, progEmits_cons, progEmits_append, h, instrEmits]
  simp [progEmits, instrEmits]

theorem progEmits_delveEntries (c : Flags) (path : Str) :
    ∀ es : Entries, progEmits c (delveEntries c path es) = emittedEntries c path es
  | .nil => by simp [delveEntries, emittedEntries, progEmits]
  | .cons name d node rest => by
    have ih := progEmits_delveEntries c path rest
    simp only [delveEntries, emittedEntries, progEmits_append, ih]
    congr 1
    cases d
    · simp only [Bool.false_eq_true, if_false]
      split
      · split <;> simp [progEmits, instrEmits]
      · simp [progEmits, instrEmits]
    · simp [progEmits, instrEmits]

theorem progEmits_delve (c : Flags) (path : Str) (n : Node) :
    progEmits c (delve c path n) = emitted c path n := by
  cases n with
  | noent =>
    simp only [delve, emitted, isDir, opens]
    split <;> simp [progEmits, instrEmits]
  | file content =>
    simp only [delve, emitted, isDir, opens]
    split <;> simp [progEmits, instrEmits]
  | dir ok es =>
    simp only [delve, emitted, isDir, opens]
    split
    · simp [progEmits, instrEmits]
    · cases ok
      · simp [progEmits, instrEmits]
      · simp [progEmits_append, progEmits_delveEntries]
        simp [progEmits, instrEmits]
  | fifo =>
    simp only [delve, emitted, opens]
    split <;> simp [progEmits, instrEmits]

theorem progEmits_spawnRoots (c : Flags) (dirs : List (Str × Node)) :
    progEmits c (spawnRoots dirs) = allEmitted c dirs := by
  induction dirs with
  | nil => rfl
  | cons d ds ih =>
    simp only [spawnRoots, progEmits_cons, ih, instrEmits, allEmitted, List.flatMap_cons,
      List.nil_append]

theorem instrEmits_eq (c : Flags) (op : Instr) :
    (instrEmits c op : Multiset Str)
      = (op.sent : Multiset Str) + ((spawned c op).map fun t => (progEmits c t : Multiset Str)).sum := by
  cases op <;> simp [instrEmits, spawned, Instr.sent, progEmits_delve, progEmits_scrape]

theorem accounted_update (c : Flags) (tasks : List (List Instr)) (i : Nat) (op : Instr)
    (rest : List Instr) (hget : tasks.getD i [] = op :: rest) :
    (((tasks ++ spawned c op).set i rest).map fun t => (progEmits c t : Multiset Str)).sum
        + (op.sent : Multiset Str)
      = (tasks.map fun t => (progEmits c t : Multiset Str)).sum := by
  have h1 := sum_map_update (fun t => (progEmits c t : Multiset Str)) tasks (spawned c op)
    i op rest hget
  have h2 := instrEmits_eq c op
  simp only [progEmits_cons, ← Multiset.coe_add] at h1
  rw [h2] at h1
  refine add_right_cancel (b := ((spawned c op).map fun t => (progEmits c t : Multiset Str)).sum
    + (progEmits c rest : Multiset Str)) ?_
  exact Eq.trans (by abel) (h1.trans (by abel))

theorem accounted_exec_task (c : Flags) (s s1 : State) (i : Nat) (op : Instr)
    (rest : List Instr) (hget : s.tasks.getD i [] = op :: rest)
    (hex : exec c s op = some s1) :
    accounted c { s1 with tasks := s1.tasks.set i rest } = accounted c s := by
  obtain ⟨hwg, htasks, htok, hch, hpushed, hout, hprel, hwait, hexit, hguard, _⟩ :=
    exec_spec c s s1 op hex
  have h1 := accounted_update c s.tasks i op rest hget
  simp only [accounted, htasks, hpushed, hprel, ← Multiset.coe_add]
  rw [← h1]
  abel

theorem accounted_exec_main (c : Flags) (s s1 : State) (op : Instr) (rest : List Instr)
    (hp : s.prelude = op :: rest) (hex : exec c s op = some s1) :
    accounted c { s1 with prelude := rest } = accounted c s := by
  obtain ⟨hwg, htasks, htok, hch, hpushed, hout, hprel, hwait, hexit, hguard, _⟩ :=
    exec_spec c s s1 op hex
  have h2 := instrEmits_eq c op
  simp only [accounted, htasks, hpushed, hp, progEmits_cons, ← Multiset.coe_add,
    List.map_append, List.sum_append, h2]
  abel

theorem accounted_step (c : Flags) (s s1 : State) (a : Actor) (hs : step c s a = some s1) :
    accounted c s1 = accounted c s := by
  cases a with
  | main =>
    simp only [step] at hs
    split at hs
    · rename_i op rest hp
      cases hex : exec c s op with
      | none => simp [hex] at hs
      | some s2 =>
        simp only [hex, Option.map_some', Option.some.injEq] at hs
        subst hs
        exact accounted_exec_main c s s2 op rest hp hex
    · split at hs
      · cases hs; rfl
      · cases hs
  | task i =>
    simp only [step] at hs
    split at hs
    · cases hs
    · rename_i op rest hget
      cases hex : exec c s op with
      | none => simp [hex] at hs
      | some s2 =>
        simp only [hex, Option.map_some', Option.some.injEq] at hs
        subst hs
        exact accounted_exec_task c s s2 i op rest hget hex
  | waiter =>
    simp only [step] at hs
    split at hs
    · split at hs
      · cases hs; rfl
      · cases hs
    · cases hs; rfl
    · cases hs
  | recvMatch =>
    simp only [step] at hs
    split at hs
    · split at hs
      · cases hs; rfl
      · cases hs
    · cases hs
  | recvSync i =>
    simp only [step] at hs
    split at hs
    · split at hs
      · rename_i r rest hget
        cases hs
        have h1 := accounted_update c s.tasks i (.push r) rest hget
        simp only [spawned, List.append_nil, Instr.sent] at h1
        simp only [accounted, ← Multiset.coe_add]
        rw [← h1]
        abel
      · cases hs
    · cases hs
  | recvDone =>
    simp only [step] at hs
    split at hs
    · split at hs
      · cases hs; rfl
      · split at hs
        · cases hs; rfl
        · cases hs; rfl
      · cases hs
    · cases hs
  | idle =>
    simp only [step] at hs
    split at hs
    · cases hs; rfl
    · cases hs

theorem accounted_reachable (c : Flags) (dirs : List (Str × Node)) (s : State)
    (h : Reachable c dirs s) : accounted c s = (allEmitted c dirs : Multiset Str) := by
  induction h with
  | init => simp [accounted, initState, progEmits_spawnRoots]
  | step a _ hs ih => rw [accounted_step c _ _ a hs, ih]

theorem out_le_allEmitted (c : Flags) (dirs : List (Str × Node)) (s : State)
    (h : Reachable c dirs s) : (s.out : Multiset Str) ≤ (allEmitted c dirs : Multiset Str) := by
  have hinv := inv_reachable c dirs s h
  have hacc := accounted_reachable c dirs s h
  rw [← hacc, accounted, ← hinv.history, ← Multiset.coe_add, add_assoc, add_assoc]
  exact Multiset.le_add_right _ _

theorem out_perm_of_exited (c : Flags) (dirs : List (Str × Node)) (s : State)
    (h : Reachable c dirs s) (hx : s.exited = true) : s.out.Perm (allEmitted c dirs) := by
  have hinv := inv_reachable c dirs s h
  have hacc := accounted_reachable c dirs s h
  obtain ⟨hw, hch⟩ := hinv.left hx
  have hp := hinv.started (by rw [hw]; simp)
  have ht := hinv.signalled (Or.inr (Or.inr hw))
  have h0 : (s.tasks.map fun t => (progEmits c t : Multiset Str)).sum = 0 := by
    apply List.sum_eq_zero
    intro x hx
    obtain ⟨t, htm, rfl⟩ := List.mem_map.mp hx
    rw [ht t htm]
    rfl
  have hh := hinv.history
  rw [hch, List.append_nil] at hh
  rw [accounted, h0, hp, ← hh] at hacc
  simp only [progEmits, List.map_nil, List.flatten_nil, add_zero, Multiset.coe_nil] at hacc
  exact Multiset.coe_eq_coe.mp hacc

theorem sniffBuf_of_long (content : Str) (h : 512 ≤ content.length) :
    DetectContentType (sniffBuf content) = DetectContentType content := by
  have h0 : 512 - content.length = 0 := by omega
  have hl : (content.take 512).length = 512 := by simp [List.length_take]; omega
  simp only [sniffBuf, h0, List.replicate_zero, List.append_nil, DetectContentType, hl,
    gt_iff_lt, lt_irrefl, if_false]
  by_cases hc : content.length > 512
  · simp only [gt_iff_lt] at hc
    simp only [hc, if_true]
  · have : content.take 512 = content := List.take_of_length_le (by omega)
    simp only [gt_iff_lt] at hc
    simp only [hc, if_false, this]

/-- For a file of 512 bytes or more `scrape` classifies the content itself:
the file is skipped exactly when `-b` is not given and the content type of the
content is a generic binary one.  With `-b` no file is skipped at the content
type check, whatever its length. -/
theorem scrape_classifies_long_file (c : Flags) (content : Str) (h : 512 ≤ content.length) :
    skippedAsBinary c content
      = (!c.allMimes && stringsContains (DetectContentType content) (ascii "octet-stream"))
    ∧ (c.allMimes = true → ∀ short : Str, skippedAsBinary c short = false) := by
  refine ⟨by simp only [skippedAsBinary, sniffBuf_of_long content h], ?_⟩
  intro hb short
  simp [skippedAsBinary, hb]

set_option maxRecDepth 100000 in
/-- A text file of 512 bytes is not skipped with the default flags. -/
theorem scrape_classifies_long_file_witness :
    skippedAsBinary (defaultFlags (ascii "o") reO) (List.replicate 512 97) = false := by
  rw [(scrape_classifies_long_file (defaultFlags (ascii "o") reO) (List.replicate 512 97)
    (by simp)).1]
  decide

/-- Without `-a`, `delve` on a path that is in `noiseDirs` returns at once: it
calls `wg.Done()` and does nothing else, whatever the path resolves to, so
nothing below it is emitted.  The entry `.git` of the root `.` has the joined
path `.git` and is such a path. -/
theorem delve_skips_noise_path (c : Flags) (path : Str) (n : Node)
    (ha : c.allDirs = false) (hp : path ∈ noiseDirs) :
    delve c path n = [.done] ∧ emitted c path n = [] ∧
    filepathJoin (ascii ".") (ascii ".git") ∈ noiseDirs := by
  refine ⟨by simp [delve, ha, hp], ?_, by decide⟩
  cases n <;> simp [emitted, ha, hp]

/-- The directory `.git` reached from the root `.` is not searched. -/
theorem delve_skips_noise_path_witness :
    emitted { defaultFlags (ascii "o") reO with allMimes := true }
      (filepathJoin (ascii ".") (ascii ".git")) gitDir = [] :=
  (delve_skips_noise_path { defaultFlags (ascii "o") reO with allMimes := true }
    (filepathJoin (ascii ".") (ascii ".git")) gitDir rfl (by decide)).2.1

/-- When the collector loop has been left, the lines written are, up to their
order, the records that `delve` and `scrape` produce for the roots; before
that, the lines written are some of them. -/
theorem output_is_emitted (c : Flags) (dirs : List (Str × Node)) (s : State)
    (h : Reachable c dirs s) :
    (s.out : Multiset Str) ≤ (allEmitted c dirs : Multiset Str) ∧
    (s.exited = true → s.out.Perm (allEmitted c dirs)) :=
  ⟨out_le_allEmitted c dirs s h, out_perm_of_exited c dirs s h⟩

set_option maxRecDepth 100000 in
/-- The complete run of scenario 1 writes the emitted records. -/
theorem output_is_emitted_witness :
    (run tightFlags (initState tightFlags [(ascii ".", scenarioTree)]) fullSchedule).out.Perm
      (allEmitted tightFlags [(ascii ".", scenarioTree)]) :=
  (output_is_emitted tightFlags [(ascii ".", scenarioTree)] _
    (reachable_run tightFlags _ fullSchedule _ Reachable.init)).2 (by decide)

set_option maxRecDepth 100000 in
/-- Claim C1, evaluated where it fails.  On the tree of scenario 1, searched
from `.` with the expression `o` and the default flags, `delve` and `scrape`
produce no record, and no run of the program writes a line; the three
expected records are produced only with `-b`, and then every run that leaves
the collector loop has written them, in some order. -/
theorem scenario_one_emits_nothing :
    emitted (defaultFlags (ascii "o") reO) (ascii ".") scenarioTree = []
    ∧ (∀ s, Reachable (defaultFlags (ascii "o") reO) [(ascii ".", scenarioTree)] s →
        s.out = [])
    ∧ emitted { defaultFlags (ascii "o") reO with allMimes := true } (ascii ".") scenarioTree
      = [ascii "a.txt:1: hello", ascii "a.txt:2: world", ascii "b.txt:1: goodbye"]
    ∧ (∀ s, Reachable { defaultFlags (ascii "o") reO with allMimes := true }
          [(ascii ".", scenarioTree)] s → s.exited = true →
        s.out.Perm [ascii "a.txt:1: hello", ascii "a.txt:2: world", ascii "b.txt:1: goodbye"]) := by
  have h1 : emitted (defaultFlags (ascii "o") reO) (ascii ".") scenarioTree = [] := by decide
  have h2 : emitted { defaultFlags (ascii "o") reO with allMimes := true } (ascii ".")
      scenarioTree
      = [ascii "a.txt:1: hello", ascii "a.txt:2: world", ascii "b.txt:1: goodbye"] := by decide
  refine ⟨h1, ?_, h2, ?_⟩
  · intro s hs
    have := out_le_allEmitted _ _ s hs
    simp only [allEmitted, List.flatMap_cons, List.flatMap_nil, List.append_nil, h1,
      Multiset.coe_nil, nonpos_iff_eq_zero, Multiset.coe_eq_zero] at this
    exact this
  · intro s hs hx
    have := out_perm_of_exited _ _ s hs hx
    simpa only [allEmitted, List.flatMap_cons, List.flatMap_nil, List.append_nil, h2] using this

set_option maxRecDepth 100000 in
/-- With `-filemax 0` the program reaches a state in which the collector loop
has not been left and no step changes the state: `scrape` waits for a token
that never comes. -/
theorem no_tokens_deadlock :
    Reachable noTokens [(ascii "a.txt", .file (some (ascii "hello\n")))] stuck ∧
    stuck.exited = false ∧ stuck.wg = 1 ∧
    ∀ a s1, step noTokens stuck a = some s1 → s1 = stuck := by
  refine ⟨reachable_run _ _ _ _ Reachable.init, by decide, by decide, ?_⟩
  intro a s1 hs
  cases a with
  | main =>
    have h : step noTokens stuck .main = none := by rfl
    rw [h] at hs; cases hs
  | waiter =>
    have h : step noTokens stuck .waiter = none := by rfl
    rw [h] at hs; cases hs
  | recvMatch =>
    have h : step noTokens stuck .recvMatch = none := by rfl
    rw [h] at hs; cases hs
  | recvDone =>
    have h : step noTokens stuck .recvDone = none := by rfl
    rw [h] at hs; cases hs
  | idle =>
    have h : step noTokens stuck .idle = some stuck := by rfl
    rw [h] at hs
    exact (Option.some.inj hs).symm
  | recvSync i =>
    have h : step noTokens stuck (.recvSync i) = none := by rfl
    rw [h] at hs; cases hs
  | task i =>
    match i with
    | 0 =>
      have h : step noTokens stuck (.task 0) = none := by rfl
      rw [h] at hs; cases hs
    | 1 =>
      have h : step noTokens stuck (.task 1) = none := by rfl
      rw [h] at hs; cases hs
    | n + 2 =>
      have h : step noTokens stuck (.task (n + 2)) = none := by rfl
      rw [h] at hs; cases hs

/-- A root that is not a directory is handed to `scrape`, also in
match-by-name mode: its content is searched and its name is not tested. -/
theorem delve_scrapes_file_root (c : Flags) (path : Str) (content : Option Str)
    (h : c.allDirs = true ∨ path ∉ noiseDirs) :
    delve c path (.file content) = [.add, .goScrape path (.file content), .done] := by
  rcases h with h | h
  · simp [delve, h, isDir, opens]
  · simp [delve, h, isDir, opens]

/-- In match-by-name mode the root `a.txt`, a file, is scanned like any
other file. -/
theorem delve_scrapes_file_root_witness :
    delve { defaultFlags (ascii "^a") reCaretA with byName := true } (ascii "a.txt")
        (.file (some (ascii "x\n")))
      = [.add, .goScrape (ascii "a.txt") (.file (some (ascii "x\n"))), .done] :=
  delve_scrapes_file_root _ _ _ (Or.inr (by decide))

/-- Two runs of the program on the same roots with the same flags that both
leave the collector loop have written the same lines, up to their order. -/
theorem output_is_determined (c : Flags) (dirs : List (Str × Node)) (s1 s2 : State)
    (h1 : Reachable c dirs s1) (h2 : Reachable c dirs s2)
    (hx1 : s1.exited = true) (hx2 : s2.exited = true) : s1.out.Perm s2.out :=
  (out_perm_of_exited c dirs s1 h1 hx1).trans (out_perm_of_exited c dirs s2 h2 hx2).symm

set_option maxRecDepth 100000 in
/-- The complete run of scenario 1 and the same run with the collector slower
by two idle rounds write the same lines. -/
theorem output_is_determined_witness :
    (run tightFlags (initState tightFlags [(ascii ".", scenarioTree)]) fullSchedule).out.Perm
      (run tightFlags (initState tightFlags [(ascii ".", scenarioTree)])
        (.main :: .main :: .main :: .idle :: .idle :: fullSchedule)).out :=
  output_is_determined tightFlags [(ascii ".", scenarioTree)] _ _
    (reachable_run tightFlags _ fullSchedule _ Reachable.init)
    (reachable_run tightFlags _ _ _ Reachable.init) (by decide) (by decide)

set_option maxRecDepth 100000 in
/-- Scenario 2: in literal mode with the pattern `xyz` no run on the tree of
scenario 1 writes a line, with or without `-b`. -/
theorem scenario_two_emits_nothing :
    (∀ s, Reachable { defaultFlags (ascii "xyz") reO with literal := true }
        [(ascii ".", scenarioTree)] s → s.out = [])
    ∧ (∀ s, Reachable { defaultFlags (ascii "xyz") reO with literal := true, allMimes := true }
        [(ascii ".", scenarioTree)] s → s.out = []) := by
  constructor
  · intro s hs
    have := out_le_allEmitted _ _ s hs
    have h1 : allEmitted { defaultFlags (ascii "xyz") reO with literal := true }
        [(ascii ".", scenarioTree)] = [] := by decide
    rw [h1] at this
    simpa using this
  · intro s hs
    have := out_le_allEmitted _ _ s hs
    have h1 : allEmitted
        { defaultFlags (ascii "xyz") reO with literal := true, allMimes := true }
        [(ascii ".", scenarioTree)] = [] := by decide
    rw [h1] at this
    simpa using this

/-- A file that cannot be opened, whose first read fails (an empty file or a
directory among them), or that is skipped at the content type check yields no
record. -/
theorem scrape_of_unreadable_is_silent (c : Flags) (path : Str) :
    scrapeRecords c path .noent = [] ∧ scrapeRecords c path (.file none) = [] ∧
    scrapeRecords c path (.file (some [])) = [] ∧
    (∀ ok es, scrapeRecords c path (.dir ok es) = []) ∧
    (∀ content, skippedAsBinary c content = true →
      scrapeRecords c path (.file (some content)) = []) := by
  refine ⟨rfl, rfl, rfl, fun _ _ => rfl, ?_⟩
  intro content h
  simp [scrapeRecords, h]

set_option maxRecDepth 100000 in
/-- The short text file of scenario 1 is skipped at the content type check and
yields no record. -/
theorem scrape_of_unreadable_is_silent_witness :
    scrapeRecords (defaultFlags (ascii "o") reO) (ascii "a.txt")
      (.file (some (ascii "hello\nworld\n"))) = [] :=
  (scrape_of_unreadable_is_silent (defaultFlags (ascii "o") reO) (ascii "a.txt")).2.2.2.2
    (ascii "hello\nworld\n") (by decide)

/-- When `delve` on a root, or a goroutine started below it, calls `os.Open`
on a path that never opens, no run of the program leaves the collector
loop. -/
theorem search_reaching_fifo_never_exits (c : Flags) (dirs : List (Str × Node))
    (hd : ∃ d ∈ dirs, reachesFifo c d.1 d.2 = true) (s : State) (h : Reachable c dirs s) :
    s.exited = false :=
  never_exits c dirs hd s h

set_option maxRecDepth 100000 in
/-- With one token and the named pipe given as a root next to the tree of
scenario 1, the state after the complete schedule of scenario 1 is still in
the collector loop. -/
theorem search_reaching_fifo_never_exits_witness :
    (run tightFlags
      (initState tightFlags [(ascii ".", scenarioTree), (ascii "pipe", .fifo)])
      fullSchedule).exited = false :=
  search_reaching_fifo_never_exits tightFlags
    [(ascii ".", scenarioTree), (ascii "pipe", .fifo)]
    ⟨(ascii "pipe", .fifo), by simp, by decide⟩ _
    (reachable_run tightFlags _ fullSchedule _ Reachable.init)

end Dive
